import Mathlib

/-!
# Verification of the chemenv coordination-geometry matching engine

Shallow embedding of the geometry-matching core of
`pymatgen/analysis/chemenv/coordination_environments/coordination_geometry_finder.py`
(and the `SeparationPlane` constructor of `coordination_geometries.py`),
with theorems about the Procrustes aligner (`symmetry_measure`,
`find_rotation`, `find_scaling_factor`), the orchestrator's minimum
selection, the separation-plane search skeleton, the random fallback and
the permutation index maps.

Numbers are modelled by `ℝ` (the source computes with numpy floats); point
sets of `n` points in 3-space are `Matrix (Fin n) (Fin 3) ℝ`, one row per
point, exactly as the numpy `n×3` arrays of the source.  The singular value
decomposition performed by `numpy.linalg.svd` is an external numerical
routine: its output `U, S, Vt` is passed as data, and the theorems
hypothesize that it is a valid SVD of the cross-covariance matrix
(`IsSVD`).  Python dicts keyed by small integers are modelled by
`ℕ → Option ℕ` with insert-overwrite semantics.
-/

open Matrix Finset

noncomputable section

namespace Chemenv

/-- `np.tensordot(A, B)` for two `n×k` arrays (double contraction):
the sum of the entrywise products. -/
def tensordot {n k : ℕ} (A B : Matrix (Fin n) (Fin k) ℝ) : ℝ :=
  ∑ i, ∑ j, A i j * B i j

/-- The cross-covariance `H = points_distortedᵀ · points_perfect` computed
inside `find_rotation`. -/
def crossCovariance {n : ℕ} (points_distorted points_perfect : Matrix (Fin n) (Fin 3) ℝ) :
    Matrix (Fin 3) (Fin 3) ℝ :=
  points_distortedᵀ * points_perfect

/-- `U, S, Vt` is a valid singular value decomposition of `H`:
`U` and `Vt` are orthogonal, `S` is diagonal with non-negative entries and
`H = U·S·Vt`.  This is the contract of `numpy.linalg.svd` (which the source
calls on the cross-covariance matrix). -/
def IsSVD (H U S Vt : Matrix (Fin 3) (Fin 3) ℝ) : Prop :=
  U * Uᵀ = 1 ∧ Uᵀ * U = 1 ∧ Vt * Vtᵀ = 1 ∧ Vtᵀ * Vt = 1 ∧
    (∃ sv : Fin 3 → ℝ, (∀ i, 0 ≤ sv i) ∧ S = Matrix.diagonal sv) ∧
    H = U * S * Vt

/-- Embeds `find_rotation(points_distorted, points_perfect)`:
the source computes `H = points_distorted.T @ points_perfect`, calls
`U, _S, Vt = svd(H)` and returns `Vt.T @ U.T`.  The SVD factors are passed
as parameters (theorems relate them to `crossCovariance` via `IsSVD`). -/
def find_rotation {n : ℕ} (points_distorted points_perfect : Matrix (Fin n) (Fin 3) ℝ)
    (U Vt : Matrix (Fin 3) (Fin 3) ℝ) : Matrix (Fin 3) (Fin 3) ℝ :=
  Vtᵀ * Uᵀ

/-- Embeds `find_scaling_factor(points_distorted, points_perfect, rot)`:
`rotated_coords = (rot @ points_distorted.T).T`, and the returned triple is
`(tensordot(rotated_coords, points_perfect) / tensordot(rotated_coords, rotated_coords),
rotated_coords, points_perfect)`. -/
def find_scaling_factor {n : ℕ} (points_distorted points_perfect : Matrix (Fin n) (Fin 3) ℝ)
    (rot : Matrix (Fin 3) (Fin 3) ℝ) :
    ℝ × Matrix (Fin n) (Fin 3) ℝ × Matrix (Fin n) (Fin 3) ℝ :=
  let rotated_coords := (rot * points_distortedᵀ)ᵀ
  (tensordot rotated_coords points_perfect / tensordot rotated_coords rotated_coords,
    rotated_coords, points_perfect)

/-- The dictionary returned by `symmetry_measure`: keys
`symmetry_measure`, `scaling_factor`, `rotation_matrix` (the latter two are
`None` on the single-point shortcut). -/
structure SMResult where
  symmetry_measure : ℝ
  scaling_factor : Option ℝ
  rotation_matrix : Option (Matrix (Fin 3) (Fin 3) ℝ)
deriving Inhabited

/-- Embeds `symmetry_measure(points_distorted, points_perfect)`.
When there is only one point the source returns
`{"symmetry_measure": 0.0, "scaling_factor": None, "rotation_matrix": None}`
before any rotation / scaling / SVD work; otherwise it computes the rotation,
the scaling factor, multiplies, and returns `num / denom * 100.0` where
`num = tensordot(diff, diff)`, `diff = points_perfect - scaling_factor * rotated_coords`,
`denom = tensordot(points_perfect, points_perfect)`. -/
def symmetry_measure {n : ℕ} (points_distorted points_perfect : Matrix (Fin n) (Fin 3) ℝ)
    (U Vt : Matrix (Fin 3) (Fin 3) ℝ) : SMResult :=
  if n = 1 then
    { symmetry_measure := 0.0, scaling_factor := none, rotation_matrix := none }
  else
    let rot := find_rotation points_distorted points_perfect U Vt
    let fsf := find_scaling_factor points_distorted points_perfect rot
    let scaling_factor := fsf.1
    let rotated_coords := scaling_factor • fsf.2.1
    let diff := fsf.2.2 - rotated_coords
    let num := tensordot diff diff
    let denom := tensordot fsf.2.2 fsf.2.2
    { symmetry_measure := num / denom * 100.0,
      scaling_factor := some scaling_factor,
      rotation_matrix := some rot }

/-- The distorted set is an exact similarity transform of the perfect set
under the already-applied correspondence: every distorted point is a fixed
positive multiple of a fixed orthogonal transform of the matching perfect
point. -/
def IsSimilarityTransform {n : ℕ} (points_distorted points_perfect : Matrix (Fin n) (Fin 3) ℝ) :
    Prop :=
  ∃ s : ℝ, 0 < s ∧ ∃ Q : Matrix (Fin 3) (Fin 3) ℝ, Q * Qᵀ = 1 ∧ Qᵀ * Q = 1 ∧
    ∀ i, points_distorted i = s • Q.mulVec (points_perfect i)

/-- Concrete two-point centered set `[(1,0,0), (-1,0,0)]` used as witness
input for the aligner theorems. -/
def pW : Matrix (Fin 2) (Fin 3) ℝ :=
  Matrix.of ![![1, 0, 0], ![-1, 0, 0]]

/-- Singular values of `crossCovariance pW pW = diag (2,0,0)`. -/
def svW : Fin 3 → ℝ := ![2, 0, 0]

/-- Concrete three-point sets that differ by the reflection `z ↦ -z`,
witnessing that `find_rotation` can return an improper rotation. -/
def pRefl : Matrix (Fin 3) (Fin 3) ℝ :=
  Matrix.of ![![1, 0, 0], ![0, 1, 0], ![0, 0, 1]]

/-- The mirror image of `pRefl` (third coordinate negated). -/
def dRefl : Matrix (Fin 3) (Fin 3) ℝ :=
  Matrix.of ![![1, 0, 0], ![0, 1, 0], ![0, 0, -1]]

/-- `diag (1,1,-1)`: orthogonal factor of the SVD of
`crossCovariance dRefl pRefl` and the reflection returned by
`find_rotation` on it. -/
def JRefl : Matrix (Fin 3) (Fin 3) ℝ :=
  Matrix.diagonal ![1, 1, -1]

/-- The closed-form optimal scale written in the spec:
`s = (Σ (R·distorted_i)·perfect_i) / (Σ (R·distorted_i)·(R·distorted_i))`.
Stated from the spec text, to be compared with `find_scaling_factor`. -/
def spec_scale {n : ℕ} (d p : Matrix (Fin n) (Fin 3) ℝ)
    (R : Matrix (Fin 3) (Fin 3) ℝ) : ℝ :=
  (∑ i, R.mulVec (d i) ⬝ᵥ p i) / (∑ i, R.mulVec (d i) ⬝ᵥ R.mulVec (d i))

/-- The CSM formula written in the spec:
`CSM = 100 · Σ‖perfect_i − s·R·distorted_i‖² / Σ‖perfect_i‖²`.
Stated from the spec text, to be compared with `symmetry_measure`. -/
def spec_csm {n : ℕ} (d p : Matrix (Fin n) (Fin 3) ℝ)
    (R : Matrix (Fin 3) (Fin 3) ℝ) : ℝ :=
  100 * (∑ i, ∑ j, (p i j - spec_scale d p R * R.mulVec (d i) j) ^ 2) /
    (∑ i, ∑ j, p i j ^ 2)

/-- A Python dict keyed by small integers: insert overwrites. -/
def dictInsert (m : ℕ → Option ℕ) (k v : ℕ) : ℕ → Option ℕ :=
  fun x => if x = k then some v else m x

/-- The empty dict. -/
def emptyDict : ℕ → Option ℕ := fun _ => none

/-- One step of the map-building loop: given `(iperfect, ii)` perform
`perfect2local_map[iperfect] = ii` and `local2perfect_map[ii] = iperfect`. -/
def mapsStep (acc : (ℕ → Option ℕ) × (ℕ → Option ℕ)) (pair : ℕ × ℕ) :
    (ℕ → Option ℕ) × (ℕ → Option ℕ) :=
  (dictInsert acc.1 pair.1 pair.2, dictInsert acc.2 pair.2 pair.1)

/-- Embeds the map-building loop shared verbatim by the explicit-permutation
search, the separation-plane search and the random fallback:
`for iperfect, ii in enumerate(perm): perfect2local_map[iperfect] = ii;
local2perfect_map[ii] = iperfect`.  Returns
`(perfect2local_map, local2perfect_map)`. -/
def buildP2lL2p (perm : List ℕ) : (ℕ → Option ℕ) × (ℕ → Option ℕ) :=
  perm.enum.foldl mapsStep (emptyDict, emptyDict)

/-- Embeds `AbstractGeometry.points_wcs_ctwcc(permutation=perm)`:
`np.concatenate((self._points_wcs_ctwcc[:1],
self._points_wocs_ctwcc.take(perm, axis=0)))` — row 0 is the centred
central site, row `k+1` is row `perm[k]` of the centred points without the
central site (an out-of-range index, which numpy would reject, yields the
zero row). -/
def points_wcs_ctwcc_perm {n : ℕ} (wcs : Matrix (Fin (n + 1)) (Fin 3) ℝ)
    (wocs : Matrix (Fin n) (Fin 3) ℝ) (perm : List ℕ) :
    Matrix (Fin (n + 1)) (Fin 3) ℝ :=
  Matrix.of fun i j =>
    match i with
    | ⟨0, _⟩ => wcs 0 j
    | ⟨k + 1, _⟩ => if h : perm.getD k 0 < n then wocs ⟨perm.getD k 0, h⟩ j else 0

/-- The 5-tuple returned by each per-geometry search mode:
`(permutations_symmetry_measures, permutations, algos, local2perfect_maps,
perfect2local_maps)`. -/
structure CgsmOutput where
  results : List SMResult
  permutations : List (List ℕ)
  algos : List String
  local2perfect_maps : List (ℕ → Option ℕ)
  perfect2local_maps : List (ℕ → Option ℕ)

/-- Helper for `np.argmin`: scan the tail, keeping the first position of the
strictly smallest value seen so far. -/
def argminAux : List ℝ → ℕ → ℕ → ℝ → ℕ
  | [], _, best, _ => best
  | x :: rest, pos, best, bestval =>
      if x < bestval then argminAux rest (pos + 1) pos x
      else argminAux rest (pos + 1) best bestval

/-- `np.argmin` on a list of reals: index of the first minimum
(0 on the empty list). -/
def argminList : List ℝ → ℕ
  | [] => 0
  | x :: rest => argminAux rest 1 0 x

/-- One entry of the per-geometry result dictionary built by the
orchestrator (`only_minimum` branch); translation-vector bookkeeping is not
modelled (no claim concerns it). -/
structure ResultEntry where
  csm : ℝ
  indices : List ℕ
  algo : String
  local2perfect_map : ℕ → Option ℕ
  perfect2local_map : ℕ → Option ℕ
  scaling_factor : Option ℝ
  rotation_matrix : Option (Matrix (Fin 3) (Fin 3) ℝ)

/-- Embeds the `only_minimum` selection of
`get_coordination_symmetry_measures` (lines 1211-1224; the same block
appears in `get_coordination_symmetry_measures_optim`): when the
per-geometry result list is non-empty, take
`imin = np.argmin([rr["symmetry_measure"] for rr in result])` and report
the csm / permutation / maps at `imin`, together with
`1.0 / scaling_factor` and `np.linalg.inv(rotation_matrix)`. -/
def selectMinimumEntry (out : CgsmOutput) : Option ResultEntry :=
  if 0 < out.results.length then
    let imin := argminList (out.results.map SMResult.symmetry_measure)
    let r := out.results.getD imin default
    some
      { csm := r.symmetry_measure
        indices := out.permutations.getD imin []
        algo := out.algos.getD imin ""
        local2perfect_map := out.local2perfect_maps.getD imin emptyDict
        perfect2local_map := out.perfect2local_maps.getD imin emptyDict
        scaling_factor := r.scaling_factor.map fun s => 1 / s
        rotation_matrix := r.rotation_matrix.map fun R => R⁻¹ }
  else none

/-- The fixed `S:1` result entry returned by the orchestrator for a
single-neighbor local geometry: csm `0.0`, indices `[0]`, algo `EXPLICIT`,
identity maps `{0: 0}`, `None` scaling factor and rotation matrix. -/
def s1Entry : ResultEntry :=
  { csm := 0.0
    indices := [0]
    algo := "EXPLICIT"
    local2perfect_map := dictInsert emptyDict 0 0
    perfect2local_map := dictInsert emptyDict 0 0
    scaling_factor := none
    rotation_matrix := none }

/-- Embeds the `only_minimum=True` path of
`get_coordination_symmetry_measures`: when the local geometry has exactly
one point, return `{}` if no geometry is implemented for coordination
number 1 and the fixed `S:1` entry otherwise, without running any search;
otherwise build one `selectMinimumEntry` per implemented geometry (a
geometry whose search produced no result is skipped).  The per-geometry
search output is passed as a function of the geometry symbol. -/
def get_coordination_symmetry_measures (coordsLen : ℕ)
    (test_geometries : List String) (cgsmOf : String → CgsmOutput) :
    List (String × ResultEntry) :=
  if coordsLen = 1 then
    if test_geometries.length = 0 then []
    else [("S:1", s1Entry)]
  else
    test_geometries.filterMap fun g =>
      (selectMinimumEntry (cgsmOf g)).map fun e => (g, e)

/-- Embeds `coordination_geometry_symmetry_measures_standard` (the
`optimization == 2` and default branches build the same lists): for every
permutation in the algorithm's list, build the two index maps, permute the
local points, and score through `symmetry_measure` (whose per-permutation
SVD factors come from the oracle `svdOf`). -/
def coordination_geometry_symmetry_measures_standard {n : ℕ}
    (algoPerms : List (List ℕ)) (algoName : String)
    (wcs : Matrix (Fin (n + 1)) (Fin 3) ℝ) (wocs : Matrix (Fin n) (Fin 3) ℝ)
    (points_perfect : Matrix (Fin (n + 1)) (Fin 3) ℝ)
    (svdOf : List ℕ → Matrix (Fin 3) (Fin 3) ℝ × Matrix (Fin 3) (Fin 3) ℝ) :
    CgsmOutput :=
  { results := algoPerms.map fun perm =>
      symmetry_measure (points_wcs_ctwcc_perm wcs wocs perm) points_perfect
        (svdOf perm).1 (svdOf perm).2
    permutations := algoPerms
    algos := algoPerms.map fun _ => algoName
    local2perfect_maps := algoPerms.map fun perm => (buildP2lL2p perm).2
    perfect2local_maps := algoPerms.map fun perm => (buildP2lL2p perm).1 }

/-- Embeds `coordination_geometry_symmetry_measures_fallback_random` with
its default `n_random = 10` kept as an explicit argument: draw `n_random`
permutations from the random generator (modelled as the oracle `rng`, the
i-th draw of `rng.permutation(cn)`), build the index maps, permute the
local points and score through `symmetry_measure`. -/
def coordination_geometry_symmetry_measures_fallback_random {n : ℕ}
    (n_random : ℕ) (rng : ℕ → List ℕ)
    (wcs : Matrix (Fin (n + 1)) (Fin 3) ℝ) (wocs : Matrix (Fin n) (Fin 3) ℝ)
    (points_perfect : Matrix (Fin (n + 1)) (Fin 3) ℝ)
    (svdOf : List ℕ → Matrix (Fin 3) (Fin 3) ℝ × Matrix (Fin 3) (Fin 3) ℝ) :
    CgsmOutput :=
  { results := (List.range n_random).map fun idx =>
      symmetry_measure (points_wcs_ctwcc_perm wcs wocs (rng idx)) points_perfect
        (svdOf (rng idx)).1 (svdOf (rng idx)).2
    permutations := (List.range n_random).map fun idx => rng idx
    algos := (List.range n_random).map fun _ => "APPROXIMATE_FALLBACK"
    local2perfect_maps := (List.range n_random).map fun idx => (buildP2lL2p (rng idx)).2
    perfect2local_maps := (List.range n_random).map fun idx => (buildP2lL2p (rng idx)).1 }

/-- A concrete two-result search output used as witness input for the
orchestrator selection theorems. -/
def outW : CgsmOutput :=
  { results := [⟨3, none, none⟩, ⟨1, none, none⟩]
    permutations := [[0], [1]]
    algos := ["a", "b"]
    local2perfect_maps := [emptyDict, emptyDict]
    perfect2local_maps := [emptyDict, emptyDict] }

/-- A concrete one-result search output whose minimum result carries an
explicit scaling factor `2` and rotation matrix `1`, witness input for the
inverse-reporting theorem. -/
def outW2 : CgsmOutput :=
  { results := [⟨3, some 2, some 1⟩]
    permutations := [[0]]
    algos := ["a"]
    local2perfect_maps := [emptyDict]
    perfect2local_maps := [emptyDict] }

/-- The module-level tolerance sequence
`DIST_TOLERANCES = [0.02, 0.05, 0.1, 0.2, 0.3]`. -/
def DIST_TOLERANCES : List ℝ := [0.02, 0.05, 0.1, 0.2, 0.3]

/-- Insert into an ascending list (helper for the sorts below). -/
def insertNat (x : ℕ) : List ℕ → List ℕ
  | [] => [x]
  | y :: rest => if x ≤ y then x :: y :: rest else y :: insertNat x rest

/-- Ascending insertion sort on naturals (models Python `sorted` on index
lists). -/
def sortNat (l : List ℕ) : List ℕ := l.foldr insertNat []

/-- Insert an index into an index list kept ascending by value (helper for
`argsort`). -/
def insertIdxSorted (vals : List ℕ) (i : ℕ) : List ℕ → List ℕ
  | [] => [i]
  | j :: rest => if vals.getD i 0 < vals.getD j 0 then i :: j :: rest
      else j :: insertIdxSorted vals i rest

/-- `np.argsort` on a list of naturals: indices sorted by value (every use
in this development sorts lists with pairwise distinct values, where any
sort kind agrees). -/
def argsort (vals : List ℕ) : List ℕ :=
  (List.range vals.length).foldr (insertIdxSorted vals) []

/-- A separation: the triple `(side1 indices, in-plane indices, side2
indices)` produced when a plane classifies the observed points. -/
abbrev Separation := List ℕ × List ℕ × List ℕ

/-- Modelled from the spec: `sort_separation` lives in the
coordination-geometry utilities module, which is not under src.  The spec
says the two side groups may be mirrored, the smaller side group coming
first; each index list is sorted so equal separations compare equal. -/
def sort_separation (separation : Separation) : Separation :=
  if separation.2.2.length < separation.1.length then
    (sortNat separation.2.2, sortNat separation.2.1, sortNat separation.1)
  else (sortNat separation.1, sortNat separation.2.1, sortNat separation.2.2)

/-- Modelled from the spec: `separation_in_list` lives in the
coordination-geometry utilities module, which is not under src; it detects
that a (sorted) separation was already produced by an earlier plane, so
that "facets leading to the same separation indices" are not considered
twice. -/
def separation_in_list (separation : Separation)
    (plane_separations : List Separation) : Bool :=
  plane_separations.any fun s => s = separation

/-- The data carried by a successfully constructed `SeparationPlane`
(`coordination_geometries.py`): the validated point groups, the plane
points, the flags, the permutation lists, and the derived reference
separation bookkeeping. -/
structure SeparationPlaneData where
  mirror_plane : Bool
  plane_points : List ℕ
  point_groups : List ℕ × List ℕ
  hashValue : ℕ
  ordered_plane : Bool
  ordered_point_groups : Bool × Bool
  explicit_permutations : Option (List (List ℕ))
  explicit_optimized_permutations : Option (List (List ℕ))
  permutations : List (List ℕ)
  multiplicity : Option ℕ
  other_plane_points : Option (List (List ℕ))
  minimum_number_of_points : ℕ
  maximum_number_of_points : ℕ
  ref_separation_perm : List ℕ
  argsorted_ref_separation_perm : List ℕ
  separation : ℕ × ℕ × ℕ
  algorithm_type : String

/-- Embeds `SeparationPlane.__init__`: raises (`RuntimeError`) when the
first point group is strictly larger than the second, otherwise stores the
groups, `hash = 10000·|plane_points| + 100·|A| + |B|`, the permutation list
(the optimized list when given, else the explicit list, else empty — the
source would leave the attribute unset in that last, unused case),
`maximum_number_of_points = |plane_points|`,
`ref_separation_perm = A ++ plane_points ++ B` and its `np.argsort`, and
`separation = (|A|, |plane_points|, |B|)`. -/
def SeparationPlane_init (plane_points : List ℕ) (mirror_plane : Bool)
    (ordered_plane : Bool) (point_groups : List ℕ × List ℕ)
    (ordered_point_groups : Option (Bool × Bool))
    (explicit_permutations explicit_optimized_permutations : Option (List (List ℕ)))
    (minimum_number_of_points : ℕ) (multiplicity : Option ℕ)
    (other_plane_points : Option (List (List ℕ))) :
    Except String SeparationPlaneData :=
  if point_groups.1.length > point_groups.2.length then
    Except.error ("The number of points in the first group should be\n" ++
      "less than or equal to the number of points in the second group")
  else
    Except.ok
      { mirror_plane := mirror_plane
        plane_points := plane_points
        point_groups := point_groups
        hashValue := 10000 * plane_points.length + 100 * point_groups.1.length +
          point_groups.2.length
        ordered_plane := ordered_plane
        ordered_point_groups := ordered_point_groups.getD (false, false)
        explicit_permutations := explicit_permutations
        explicit_optimized_permutations := explicit_optimized_permutations
        permutations :=
          (explicit_optimized_permutations.or explicit_permutations).getD []
        multiplicity := multiplicity
        other_plane_points := other_plane_points
        minimum_number_of_points := minimum_number_of_points
        maximum_number_of_points := plane_points.length
        ref_separation_perm := point_groups.1 ++ plane_points ++ point_groups.2
        argsorted_ref_separation_perm :=
          argsort (point_groups.1 ++ plane_points ++ point_groups.2)
        separation := (point_groups.1.length, plane_points.length,
          point_groups.2.length)
        algorithm_type := "SEPARATION_PLANE" }

/-- The inputs of `_cg_csm_separation_plane` other than the tolerance list:
the separation-plane algorithm data, the plane classification oracle `sep`
(modelled from the spec: `local_plane.indices_separate(coords, tol)` of the
`Plane` class lives in the utilities module not under src), the 2-d
projection ordering oracle `projOrder` (modelled from the spec:
`local_plane.project_and_to2dim_ordered_indices`, same module), the
`plane_safe_permutations` flag with its (test-only) permutation list, the
local points, the perfect points and the per-permutation SVD oracle. -/
structure SepPlaneContext (n : ℕ) where
  sep_plane : SeparationPlaneData
  sep : ℝ → Separation
  projOrder : List ℕ → List ℕ
  plane_safe : Bool
  safePerms : List (List ℕ)
  wcs : Matrix (Fin (n + 1)) (Fin 3) ℝ
  wocs : Matrix (Fin n) (Fin 3) ℝ
  points_perfect : Matrix (Fin (n + 1)) (Fin 3) ℝ
  svdOf : List ℕ → Matrix (Fin 3) (Fin 3) ℝ × Matrix (Fin 3) (Fin 3) ℝ

/-- The loop state of `_cg_csm_separation_plane`: the shared
`plane_separations` list, the accumulated permutations and measures, the
last `algo` string, the `plane_found` flag (initialized `False`; the
source's only assignment `plane_found = True` is commented out), and — for
the theorems about the loop — the list of tolerances for which the
classification `sep` has been invoked. -/
structure SepPlaneState where
  plane_separations : List Separation
  permutations : List (List ℕ)
  permutations_symmetry_measures : List SMResult
  algo : String
  plane_found : Bool
  evaluated_tolerances : List ℝ

/-- Embeds the body of one tolerance iteration after a matching separation
`this_separation` has been classified: append it to `plane_separations`,
derive `separation_perm` (by plane-projection ordering when
`ordered_plane`, else plain concatenation), pick the permutation list, and
for each `sep_perm` push `pp = [perm1[ii] for ii in argref_separation]`
with its symmetry measure. -/
def processSeparation {n : ℕ} (ctx : SepPlaneContext n) (st : SepPlaneState)
    (this_separation : Separation) : SepPlaneState :=
  let separation_perm :=
    if ctx.sep_plane.ordered_plane then
      (if ctx.sep_plane.ordered_point_groups.1 then
        (ctx.projOrder this_separation.1).map fun ii => this_separation.1.getD ii 0
      else this_separation.1) ++
      ((ctx.projOrder this_separation.2.1).map fun ii => this_separation.2.1.getD ii 0) ++
      (if ctx.sep_plane.ordered_point_groups.2 then
        (ctx.projOrder this_separation.2.2).map fun ii => this_separation.2.2.getD ii 0
      else this_separation.2.2)
    else this_separation.1 ++ this_separation.2.1 ++ this_separation.2.2
  let algoName :=
    if ctx.sep_plane.ordered_plane then "SEPARATION_PLANE_2POINTS_ORDERED"
    else "SEPARATION_PLANE_2POINTS"
  let sep_perms :=
    if ctx.plane_safe then ctx.safePerms else ctx.sep_plane.permutations
  let newPerms := sep_perms.map fun sep_perm =>
    let perm1 := sep_perm.map fun ii => separation_perm.getD ii 0
    ctx.sep_plane.argsorted_ref_separation_perm.map fun ii => perm1.getD ii 0
  { st with
    plane_separations := st.plane_separations ++ [this_separation]
    algo := algoName
    permutations := st.permutations ++ newPerms
    permutations_symmetry_measures := st.permutations_symmetry_measures ++
      newPerms.map fun pp =>
        symmetry_measure (points_wcs_ctwcc_perm ctx.wcs ctx.wocs pp) ctx.points_perfect
          (ctx.svdOf pp).1 (ctx.svdOf pp).2 }

/-- Embeds one iteration of the tolerance loop of
`_cg_csm_separation_plane`: set `algo = "NOT_FOUND"`, classify
(`indices_separate`, recorded in `evaluated_tolerances`), sort, skip
already-seen separations, skip separations whose in-plane count differs
from the reference, and otherwise process the separation in original or
mirrored group order. -/
def cgCsmSepPlaneStep {n : ℕ} (ctx : SepPlaneContext n) (st : SepPlaneState)
    (dist_tolerance : ℝ) : SepPlaneState :=
  let st1 := { st with
    algo := "NOT_FOUND"
    evaluated_tolerances := st.evaluated_tolerances ++ [dist_tolerance] }
  let separation := sort_separation (ctx.sep dist_tolerance)
  if separation_in_list separation st1.plane_separations then st1
  else if separation.2.1.length ≠ ctx.sep_plane.plane_points.length then st1
  else if separation.1.length = ctx.sep_plane.point_groups.1.length then
    processSeparation ctx st1 separation
  else if separation.1.length = ctx.sep_plane.point_groups.2.length then
    processSeparation ctx st1 (separation.2.2, separation.2.1, separation.1)
  else st1

/-- Embeds the tolerance loop of `_cg_csm_separation_plane`, including the
source's `if plane_found: break` (dead, since `plane_found = True` is
commented out in the source and the flag is never set). -/
def cgCsmSepPlaneLoop {n : ℕ} (ctx : SepPlaneContext n) :
    SepPlaneState → List ℝ → SepPlaneState
  | st, [] => st
  | st, t :: rest =>
      let st1 := cgCsmSepPlaneStep ctx st t
      if st1.plane_found then st1
      else cgCsmSepPlaneLoop ctx st1 rest

/-- The initial loop state of `_cg_csm_separation_plane`. -/
def cgInitState : SepPlaneState :=
  { plane_separations := []
    permutations := []
    permutations_symmetry_measures := []
    algo := ""
    plane_found := false
    evaluated_tolerances := [] }

/-- Embeds `_cg_csm_separation_plane` (the `testing=False`,
`tested_permutations=False` production path): run the tolerance loop from
the caller's `plane_separations`; return `(csm, permutations, algos)` when
any measure was produced, the source's dead `plane_found` empty return, or
`None`; also return the final shared `plane_separations` and the evaluated
tolerance trace. -/
def cgCsmSepPlane {n : ℕ} (ctx : SepPlaneContext n)
    (plane_separations : List Separation) (dist_tolerances : List ℝ) :
    Option (List SMResult × List (List ℕ) × List String) ×
      List Separation × List ℝ :=
  let st := cgCsmSepPlaneLoop ctx
    { cgInitState with plane_separations := plane_separations } dist_tolerances
  if 0 < st.permutations_symmetry_measures.length then
    (some (st.permutations_symmetry_measures, st.permutations,
      List.replicate st.permutations.length ctx.sep_plane.algorithm_type),
      st.plane_separations, st.evaluated_tolerances)
  else if st.plane_found then (some ([], [], []), st.plane_separations,
    st.evaluated_tolerances)
  else (none, st.plane_separations, st.evaluated_tolerances)

/-- The fixed inputs of
`coordination_geometry_symmetry_measures_separation_plane`: the algorithm
data, the oracles shared with `SepPlaneContext`, and the random generator
used by the fallback. -/
structure SepPlaneBase (n : ℕ) where
  sep_plane : SeparationPlaneData
  projOrder : List ℕ → List ℕ
  plane_safe : Bool
  safePerms : List (List ℕ)
  wcs : Matrix (Fin (n + 1)) (Fin 3) ℝ
  wocs : Matrix (Fin n) (Fin 3) ℝ
  points_perfect : Matrix (Fin (n + 1)) (Fin 3) ℝ
  svdOf : List ℕ → Matrix (Fin 3) (Fin 3) ℝ × Matrix (Fin 3) (Fin 3) ℝ
  rng : ℕ → List ℕ

/-- Build the per-plane context from the base and one fitted plane's
classification oracle. -/
def mkCtx {n : ℕ} (base : SepPlaneBase n) (sep : ℝ → Separation) :
    SepPlaneContext n :=
  { sep_plane := base.sep_plane
    sep := sep
    projOrder := base.projOrder
    plane_safe := base.plane_safe
    safePerms := base.safePerms
    wcs := base.wcs
    wocs := base.wocs
    points_perfect := base.points_perfect
    svdOf := base.svdOf }

/-- Accumulator of the combination loops of
`coordination_geometry_symmetry_measures_separation_plane`. -/
structure SepAccum where
  results : List SMResult
  permutations : List (List ℕ)
  algos : List String
  plane_separations : List Separation
  nplanes : ℕ

/-- Embeds the inner combination loop for one subset size: a `none`
candidate is a collinear/degenerate subset (skipped); a `some sep`
candidate is a fitted plane whose classification oracle is `sep`
(plane construction itself lives in the utilities module not under src).
Results of non-`None` returns are accumulated and `nplanes` counts them;
the shared `plane_separations` list threads through every call. -/
def processLevel {n : ℕ} (base : SepPlaneBase n) (acc : SepAccum)
    (cands : List (Option (ℝ → Separation))) : SepAccum :=
  cands.foldl
    (fun acc cand =>
      match cand with
      | none => acc
      | some sep =>
        let out := cgCsmSepPlane (mkCtx base sep) acc.plane_separations DIST_TOLERANCES
        match out.1 with
        | none => { acc with plane_separations := out.2.1 }
        | some t =>
          { results := acc.results ++ t.1
            permutations := acc.permutations ++ t.2.1
            algos := acc.algos ++ t.2.2
            plane_separations := out.2.1
            nplanes := acc.nplanes + 1 })
    acc

/-- Embeds the outer `npoints` loop: one candidate level per subset size,
stopping after the first level that produced at least one plane
(`if nplanes > 0: break`). -/
def sepPlaneLevels {n : ℕ} (base : SepPlaneBase n) :
    SepAccum → List (List (Option (ℝ → Separation))) → SepAccum
  | acc, [] => acc
  | acc, level :: rest =>
      let acc1 := processLevel base acc level
      if 0 < acc1.nplanes then acc1
      else sepPlaneLevels base acc1 rest

/-- The empty accumulator the search starts from. -/
def sepAccumInit : SepAccum :=
  { results := []
    permutations := []
    algos := []
    plane_separations := []
    nplanes := 0 }

/-- Embeds `coordination_geometry_symmetry_measures_separation_plane`: run
the subset-size levels; if no plane was found at all
(`if nplanes == 0`), return
`coordination_geometry_symmetry_measures_fallback_random` (with its default
`n_random = 10`); otherwise return the accumulated measures, permutations
and algos with the two index maps built per returned permutation. -/
def coordination_geometry_symmetry_measures_separation_plane {n : ℕ}
    (base : SepPlaneBase n)
    (candidate_levels : List (List (Option (ℝ → Separation)))) : CgsmOutput :=
  let acc := sepPlaneLevels base sepAccumInit candidate_levels
  if acc.nplanes = 0 then
    coordination_geometry_symmetry_measures_fallback_random 10 base.rng
      base.wcs base.wocs base.points_perfect base.svdOf
  else
    { results := acc.results
      permutations := acc.permutations
      algos := acc.algos
      local2perfect_maps := acc.permutations.map fun p => (buildP2lL2p p).2
      perfect2local_maps := acc.permutations.map fun p => (buildP2lL2p p).1 }

/-- A concrete separation-plane algorithm datum on 4 points: in-plane
points `[1, 2]`, point groups `([0], [3])`, one explicit permutation. -/
def spdW : SeparationPlaneData :=
  { mirror_plane := false
    plane_points := [1, 2]
    point_groups := ([0], [3])
    hashValue := 10000 * 2 + 100 * 1 + 1
    ordered_plane := false
    ordered_point_groups := (false, false)
    explicit_permutations := some [[0, 1, 2, 3]]
    explicit_optimized_permutations := none
    permutations := [[0, 1, 2, 3]]
    multiplicity := none
    other_plane_points := none
    minimum_number_of_points := 2
    maximum_number_of_points := 2
    ref_separation_perm := [0, 1, 2, 3]
    argsorted_ref_separation_perm := [0, 1, 2, 3]
    separation := (1, 2, 1)
    algorithm_type := "SEPARATION_PLANE" }

/-- A concrete search base (coordination number 1 geometry data, trivial
oracles) used as witness input for the fallback theorem. -/
def baseW : SepPlaneBase 1 :=
  { sep_plane := spdW
    projOrder := fun l => l
    plane_safe := false
    safePerms := []
    wcs := 0
    wocs := 0
    points_perfect := 0
    svdOf := fun _ => (1, 1)
    rng := fun _ => [0] }

/-- A concrete per-plane context on 4 points whose classification oracle
returns the same matching separation `([0], [1,2], [3])` at every
tolerance. -/
def ctxW : SepPlaneContext 4 :=
  { sep_plane := spdW
    sep := fun _ => ([0], [1, 2], [3])
    projOrder := fun l => l
    plane_safe := false
    safePerms := []
    wcs := 0
    wocs := 0
    points_perfect := 0
    svdOf := fun _ => (1, 1) }

section TensordotLemmas

variable {n k : ℕ} (A B : Matrix (Fin n) (Fin k) ℝ)

lemma tensordot_self_nonneg : 0 ≤ tensordot A A := by
  refine Finset.sum_nonneg fun i _ => Finset.sum_nonneg fun j _ => ?_
  exact mul_self_nonneg _

lemma tensordot_self_eq_zero_iff : tensordot A A = 0 ↔ A = 0 := by
  constructor
  · intro h
    ext i j
    have h1 : ∀ i ∈ Finset.univ, (0:ℝ) ≤ ∑ j, A i j * A i j := fun i _ =>
      Finset.sum_nonneg fun j _ => mul_self_nonneg _
    have h2 := (Finset.sum_eq_zero_iff_of_nonneg h1).mp h i (Finset.mem_univ i)
    have h3 : ∀ j ∈ Finset.univ, (0:ℝ) ≤ A i j * A i j := fun j _ => mul_self_nonneg _
    have h4 := (Finset.sum_eq_zero_iff_of_nonneg h3).mp h2 j (Finset.mem_univ j)
    have := mul_self_eq_zero.mp h4
    simpa using this
  · intro h; simp [h, tensordot]

lemma tensordot_self_pos (hA : A ≠ 0) : 0 < tensordot A A :=
  lt_of_le_of_ne (tensordot_self_nonneg A) fun h =>
    hA ((tensordot_self_eq_zero_iff A).mp h.symm)

lemma tensordot_smul_left (c : ℝ) : tensordot (c • A) B = c * tensordot A B := by
  simp [tensordot, Finset.mul_sum, mul_assoc]

lemma tensordot_eq_trace : tensordot A B = Matrix.trace (Aᵀ * B) := by
  simp only [tensordot, Matrix.trace, Matrix.diag, Matrix.mul_apply, Matrix.transpose_apply]
  rw [Finset.sum_comm]

end TensordotLemmas

section ExtraTensordot

variable {n k : ℕ}

lemma tensordot_smul_right (A B : Matrix (Fin n) (Fin k) ℝ) (c : ℝ) :
    tensordot A (c • B) = c * tensordot A B := by
  simp [tensordot, Finset.mul_sum]
  exact Finset.sum_congr rfl fun i _ => Finset.sum_congr rfl fun j _ => by ring

end ExtraTensordot

section Procrustes

variable {n : ℕ}

/-- Row-wise similarity is the same as the matrix equation
`points_distorted = s • (points_perfect * Qᵀ)`. -/
lemma isSimilarityTransform_iff_matrix (d p : Matrix (Fin n) (Fin 3) ℝ) :
    IsSimilarityTransform d p ↔
      ∃ s : ℝ, 0 < s ∧ ∃ Q : Matrix (Fin 3) (Fin 3) ℝ, Q * Qᵀ = 1 ∧ Qᵀ * Q = 1 ∧
        d = s • (p * Qᵀ) := by
  constructor
  · rintro ⟨s, hs, Q, h1, h2, hrow⟩
    refine ⟨s, hs, Q, h1, h2, ?_⟩
    ext i j
    have := congrFun (hrow i) j
    simpa [Matrix.mulVec, dotProduct, Matrix.mul_apply, Matrix.transpose_apply,
      mul_comm] using this
  · rintro ⟨s, hs, Q, h1, h2, hmat⟩
    refine ⟨s, hs, Q, h1, h2, fun i => ?_⟩
    funext j
    have := congrFun (congrFun hmat i) j
    simpa [Matrix.mulVec, dotProduct, Matrix.mul_apply, Matrix.transpose_apply,
      mul_comm] using this

/-- Core exactness of the SVD-based Procrustes solution: if the
cross-covariance of an exact similarity pair decomposes as
`σ • (Q · pᵀp) = U · diag sv · Vt` with orthogonal `U, Vt` and non-negative
`sv`, then the induced alignment `p * ((Qᵀ·U)·Vt)` restores `p` exactly. -/
lemma pG_eq_p_of_svd (p : Matrix (Fin n) (Fin 3) ℝ) (Q U Vt : Matrix (Fin 3) (Fin 3) ℝ)
    (σ : ℝ) (hσ : 0 < σ)
    (hQ1 : Q * Qᵀ = 1) (hQ2 : Qᵀ * Q = 1)
    (hU1 : U * Uᵀ = 1) (hU2 : Uᵀ * U = 1)
    (hV1 : Vt * Vtᵀ = 1) (hV2 : Vtᵀ * Vt = 1)
    (sv : Fin 3 → ℝ) (hsv : ∀ i, 0 ≤ sv i)
    (hH : σ • (Q * (pᵀ * p)) = U * Matrix.diagonal sv * Vt) :
    p * ((Qᵀ * U) * Vt) = p := by
  set M : Matrix (Fin 3) (Fin 3) ℝ := pᵀ * p with hMdef
  set W : Matrix (Fin 3) (Fin 3) ℝ := Qᵀ * U with hWdef
  set svS : Fin 3 → ℝ := fun i => σ⁻¹ * sv i with hsvS
  set S' : Matrix (Fin 3) (Fin 3) ℝ := Matrix.diagonal svS with hSdiag
  clear_value M W S'
  have hS'smul : S' = σ⁻¹ • Matrix.diagonal sv := by
    ext i j
    by_cases h : i = j <;> simp [hSdiag, Matrix.diagonal, h, hsvS]
  -- M = W * S' * Vt
  have e1 : Q * M = σ⁻¹ • (U * Matrix.diagonal sv * Vt) := by
    rw [← hH, smul_smul, inv_mul_cancel₀ hσ.ne', one_smul]
  have hM : M = W * S' * Vt := by
    have e2 : M = Qᵀ * (Q * M) := by rw [← Matrix.mul_assoc, hQ2, Matrix.one_mul]
    rw [e1] at e2
    rw [e2, hS'smul, hWdef]
    simp only [Matrix.mul_smul, Matrix.smul_mul, Matrix.mul_assoc]
  have hWWt : W * Wᵀ = 1 := by
    rw [hWdef, Matrix.transpose_mul, Matrix.transpose_transpose]
    calc Qᵀ * U * (Uᵀ * Q) = Qᵀ * (U * Uᵀ) * Q := by
          simp only [Matrix.mul_assoc]
      _ = 1 := by rw [hU1, Matrix.mul_one, hQ2]
  have hWtW : Wᵀ * W = 1 := by
    rw [hWdef, Matrix.transpose_mul, Matrix.transpose_transpose]
    calc Uᵀ * Q * (Qᵀ * U) = Uᵀ * (Q * Qᵀ) * U := by
          simp only [Matrix.mul_assoc]
      _ = 1 := by rw [hQ1, Matrix.mul_one, hU2]
  set B : Matrix (Fin 3) (Fin 3) ℝ := Vt * W with hBdef
  set N : Matrix (Fin 3) (Fin 3) ℝ := B * S' with hNdef
  clear_value B N
  have hBtB : Bᵀ * B = 1 := by
    rw [hBdef, Matrix.transpose_mul]
    calc Wᵀ * Vtᵀ * (Vt * W) = Wᵀ * (Vtᵀ * Vt) * W := by
          simp only [Matrix.mul_assoc]
      _ = 1 := by rw [hV2, Matrix.mul_one, hWtW]
  have hMsymm : Mᵀ = M := by rw [hMdef, Matrix.transpose_mul, Matrix.transpose_transpose]
  have hMpsd : M.PosSemidef := by
    rw [hMdef]
    have := Matrix.posSemidef_conjTranspose_mul_self p
    rwa [Matrix.conjTranspose_eq_transpose_of_trivial] at this
  have hNM : N = Vt * M * Vtᵀ := by
    rw [hNdef, hM, hBdef]
    calc Vt * W * S' = Vt * W * S' * 1 := by rw [Matrix.mul_one]
      _ = Vt * W * S' * (Vt * Vtᵀ) := by rw [hV1]
      _ = Vt * (W * S' * Vt) * Vtᵀ := by
          simp only [Matrix.mul_assoc]
  have hNsymm : Nᵀ = N := by
    rw [hNM, Matrix.transpose_mul, Matrix.transpose_mul, Matrix.transpose_transpose,
      hMsymm, Matrix.mul_assoc]
  have hNpsd : N.PosSemidef := by
    have key : (p * Vtᵀ)ᵀ * (p * Vtᵀ) = Vt * (pᵀ * p) * Vtᵀ := by
      rw [Matrix.transpose_mul, Matrix.transpose_transpose]
      simp only [Matrix.mul_assoc]
    have key2 : N = (p * Vtᵀ)ᵀ * (p * Vtᵀ) := by rw [key, hNM, hMdef]
    rw [key2]
    have := Matrix.posSemidef_conjTranspose_mul_self (p * Vtᵀ)
    rwa [Matrix.conjTranspose_eq_transpose_of_trivial] at this
  have hS'symm : S'ᵀ = S' := by rw [hSdiag, Matrix.diagonal_transpose]
  have hS'psd : S'.PosSemidef := by
    rw [hSdiag]
    refine Matrix.posSemidef_diagonal_iff.mpr fun i => ?_
    exact mul_nonneg (inv_nonneg.mpr hσ.le) (hsv i)
  have hNsq : N ^ 2 = S' ^ 2 := by
    have : N ^ 2 = Nᵀ * N := by rw [hNsymm, pow_two]
    rw [this, hNdef, Matrix.transpose_mul, hS'symm, pow_two]
    calc S' * Bᵀ * (B * S') = S' * (Bᵀ * B) * S' := by
          simp only [Matrix.mul_assoc]
      _ = S' * S' := by rw [hBtB, Matrix.mul_one]
  have hNS' : N = S' := hNpsd.eq_of_sq_eq_sq hS'psd hNsq
  have hBS' : B * S' = S' := by rw [← hNdef]; exact hNS'
  have hS'B : S' * B = S' := by
    have h1 : S' * Bᵀ = S' := by
      have := congrArg Matrix.transpose hBS'
      rwa [Matrix.transpose_mul, hS'symm] at this
    calc S' * B = S' * Bᵀ * B := by rw [h1]
      _ = S' * (Bᵀ * B) := by rw [Matrix.mul_assoc]
      _ = S' := by rw [hBtB, Matrix.mul_one]
  set G : Matrix (Fin 3) (Fin 3) ℝ := W * Vt with hGdef
  clear_value G
  have hMG : M * G = M := by
    rw [hM, hGdef]
    calc W * S' * Vt * (W * Vt) = W * (S' * (Vt * W)) * Vt := by
          simp only [Matrix.mul_assoc]
      _ = W * (S' * B) * Vt := by rw [hBdef]
      _ = W * S' * Vt := by rw [hS'B, Matrix.mul_assoc]
  have hGM : Gᵀ * M = M := by
    have := congrArg Matrix.transpose hMG
    rwa [Matrix.transpose_mul, hMsymm] at this
  -- p * G = p via vanishing Gram matrix of the residual
  have key : (p * G - p)ᵀ * (p * G - p) = 0 := by
    have expand : (p * G - p)ᵀ * (p * G - p) = Gᵀ * M * G - Gᵀ * M - (M * G - M) := by
      rw [Matrix.transpose_sub, Matrix.transpose_mul, Matrix.sub_mul,
        Matrix.mul_sub, Matrix.mul_sub, hMdef]
      simp only [Matrix.mul_assoc]
    rw [expand, hGM, hMG]
    abel
  have hzero : p * G - p = 0 := by
    rw [← Matrix.conjTranspose_eq_transpose_of_trivial] at key
    exact Matrix.conjTranspose_mul_self_eq_zero.mp key
  exact sub_eq_zero.mp hzero

/-- The symmetry measure is non-negative: the numerator is a sum of squares
and the denominator a sum of squares. -/
lemma symmetry_measure_nonneg (d p : Matrix (Fin n) (Fin 3) ℝ)
    (U Vt : Matrix (Fin 3) (Fin 3) ℝ) :
    0 ≤ (symmetry_measure d p U Vt).symmetry_measure := by
  rw [symmetry_measure]
  split
  · norm_num
  · simp only [find_rotation, find_scaling_factor]
    exact mul_nonneg (div_nonneg (tensordot_self_nonneg _) (tensordot_self_nonneg _))
      (by norm_num)

/-- Rewriting the rotated coordinates: `((Vtᵀ·Uᵀ)·dᵀ)ᵀ = d·(U·Vt)`. -/
lemma rotated_coords_eq (d : Matrix (Fin n) (Fin 3) ℝ) (U Vt : Matrix (Fin 3) (Fin 3) ℝ) :
    ((Vtᵀ * Uᵀ) * dᵀ)ᵀ = d * (U * Vt) := by
  simp only [Matrix.transpose_mul, Matrix.transpose_transpose]

/-- Backward direction of the zero-iff part of C1: an exact similarity pair
has symmetry measure zero for every valid SVD of its cross-covariance. -/
lemma symmetry_measure_eq_zero_of_similarity (d p : Matrix (Fin n) (Fin 3) ℝ)
    (hn : n ≠ 1) (hp : p ≠ 0) (U S Vt : Matrix (Fin 3) (Fin 3) ℝ)
    (hsvd : IsSVD (crossCovariance d p) U S Vt)
    (hsim : IsSimilarityTransform d p) :
    (symmetry_measure d p U Vt).symmetry_measure = 0 := by
  obtain ⟨σ, hσ, Q, hQ1, hQ2, hd⟩ := (isSimilarityTransform_iff_matrix d p).mp hsim
  obtain ⟨hU1, hU2, hV1, hV2, ⟨sv, hsv, hS⟩, hH⟩ := hsvd
  have hH' : σ • (Q * (pᵀ * p)) = U * Matrix.diagonal sv * Vt := by
    rw [← hS, ← hH, crossCovariance, hd, Matrix.transpose_smul, Matrix.smul_mul]
    congr 1
    rw [Matrix.transpose_mul, Matrix.transpose_transpose]
    simp only [Matrix.mul_assoc]
  have hpG := pG_eq_p_of_svd p Q U Vt σ hσ hQ1 hQ2 hU1 hU2 hV1 hV2 sv hsv hH'
  have hrotated : ((Vtᵀ * Uᵀ) * dᵀ)ᵀ = σ • p := by
    rw [rotated_coords_eq, hd, Matrix.smul_mul]
    congr 1
    have h := hpG
    simp only [Matrix.mul_assoc] at h ⊢
    exact h
  rw [symmetry_measure]
  simp only [if_neg hn, find_rotation, find_scaling_factor]
  rw [hrotated]
  have hc := tensordot_self_pos p hp
  have h1 : tensordot (σ • p) p = σ * tensordot p p := tensordot_smul_left p p σ
  have h2 : tensordot (σ • p) (σ • p) = σ * (σ * tensordot p p) := by
    rw [tensordot_smul_left, tensordot_smul_right]
  have hsval : tensordot (σ • p) p / tensordot (σ • p) (σ • p) = σ⁻¹ := by
    rw [h1, h2]
    rw [div_eq_iff (by positivity)]
    field_simp
  rw [hsval]
  have hback : σ⁻¹ • (σ • p) = p := by
    rw [smul_smul, inv_mul_cancel₀ hσ.ne', one_smul]
  rw [hback, sub_self]
  simp [tensordot]

/-- Forward direction of the zero-iff part of C1: a vanishing symmetry
measure forces the distorted set to be an exact similarity transform of the
perfect set. -/
lemma similarity_of_symmetry_measure_eq_zero (d p : Matrix (Fin n) (Fin 3) ℝ)
    (hn : n ≠ 1) (hp : p ≠ 0) (U S Vt : Matrix (Fin 3) (Fin 3) ℝ)
    (hsvd : IsSVD (crossCovariance d p) U S Vt)
    (h0 : (symmetry_measure d p U Vt).symmetry_measure = 0) :
    IsSimilarityTransform d p := by
  obtain ⟨hU1, hU2, hV1, hV2, -, -⟩ := hsvd
  rw [symmetry_measure] at h0
  simp only [if_neg hn, find_rotation, find_scaling_factor] at h0
  rw [rotated_coords_eq] at h0
  have hc := tensordot_self_pos p hp
  set rotated : Matrix (Fin n) (Fin 3) ℝ := d * (U * Vt) with hrotdef
  set s : ℝ := tensordot rotated p / tensordot rotated rotated with hsdef
  clear_value rotated s
  -- h0 : tensordot (p - s • rotated) (p - s • rotated) / tensordot p p * 100 = 0
  have hnum : tensordot (p - s • rotated) (p - s • rotated) = 0 := by
    rcases mul_eq_zero.mp h0 with h | h
    · rcases div_eq_zero_iff.mp h with h2 | h2
      · exact h2
      · exact absurd h2 hc.ne'
    · norm_num at h
  have hdiff : p - s • rotated = 0 := (tensordot_self_eq_zero_iff _).mp hnum
  have hps : p = s • rotated := by
    have := sub_eq_zero.mp hdiff
    exact this
  have hsne : s ≠ 0 := by
    intro h
    rw [h, zero_smul] at hps
    exact hp hps
  have hR1 : (U * Vt) * (Vtᵀ * Uᵀ) = 1 := by
    calc (U * Vt) * (Vtᵀ * Uᵀ) = U * (Vt * Vtᵀ) * Uᵀ := by simp only [Matrix.mul_assoc]
      _ = 1 := by rw [hV1, Matrix.mul_one, hU1]
  have hR2 : (Vtᵀ * Uᵀ) * (U * Vt) = 1 := by
    calc (Vtᵀ * Uᵀ) * (U * Vt) = Vtᵀ * (Uᵀ * U) * Vt := by simp only [Matrix.mul_assoc]
      _ = 1 := by rw [hU2, Matrix.mul_one, hV2]
  have hpd : p * (Vtᵀ * Uᵀ) = s • d := by
    rw [hps, hrotdef, Matrix.smul_mul]
    congr 1
    calc d * (U * Vt) * (Vtᵀ * Uᵀ) = d * ((U * Vt) * (Vtᵀ * Uᵀ)) := by
          simp only [Matrix.mul_assoc]
      _ = d := by rw [hR1, Matrix.mul_one]
  have hdval : d = s⁻¹ • (p * (Vtᵀ * Uᵀ)) := by
    rw [hpd, smul_smul, inv_mul_cancel₀ hsne, one_smul]
  rcases hsne.lt_or_lt with hneg | hpos
  · refine (isSimilarityTransform_iff_matrix d p).mpr
      ⟨-s⁻¹, by simpa using neg_pos.mpr (inv_lt_zero.mpr hneg), -(U * Vt), ?_, ?_, ?_⟩
    · rw [Matrix.transpose_neg, Matrix.neg_mul, Matrix.mul_neg, neg_neg, Matrix.transpose_mul]
      exact hR1
    · rw [Matrix.transpose_neg, Matrix.neg_mul, Matrix.mul_neg, neg_neg, Matrix.transpose_mul]
      exact hR2
    · rw [Matrix.transpose_neg, Matrix.mul_neg, smul_neg, neg_smul, neg_neg,
        Matrix.transpose_mul]
      exact hdval
  · refine (isSimilarityTransform_iff_matrix d p).mpr
      ⟨s⁻¹, inv_pos.mpr hpos, U * Vt, ?_, ?_, ?_⟩
    · rw [Matrix.transpose_mul]
      exact hR1
    · rw [Matrix.transpose_mul]
      exact hR2
    · rw [Matrix.transpose_mul]
      exact hdval

end Procrustes

section WitnessFacts

lemma crossCovariance_pW : crossCovariance pW pW = Matrix.diagonal svW := by
  ext i j
  fin_cases i <;> fin_cases j <;>
    simp [crossCovariance, Matrix.mul_apply, Matrix.transpose_apply, Fin.sum_univ_succ,
      pW, svW, Matrix.diagonal] <;> norm_num

lemma isSVD_pW : IsSVD (crossCovariance pW pW) 1 (Matrix.diagonal svW) 1 := by
  refine ⟨by simp, by simp, by simp, by simp, ⟨svW, ?_, rfl⟩, ?_⟩
  · intro i; fin_cases i <;> norm_num [svW]
  · rw [crossCovariance_pW]; simp

lemma pW_ne_zero : pW ≠ (0 : Matrix (Fin 2) (Fin 3) ℝ) := by
  intro h
  have h00 := congrFun (congrFun h 0) 0
  simp [pW] at h00

lemma pW_centered : ∀ j, ∑ i, pW i j = 0 := by
  intro j
  fin_cases j <;> simp [pW, Fin.sum_univ_succ]

end WitnessFacts

/-- C1: for every pair of equally sized, pre-centered point sets with at
least 2 points and the perfect set not all zeros, the value returned by
`symmetry_measure` (for any valid SVD of the cross-covariance) is
non-negative, and it equals 0 iff the distorted set is an exact similarity
transform of the perfect set under the already-applied point
correspondence. -/
theorem C1_symmetry_measure_nonneg_and_zero_iff_similarity
    {n : ℕ} (d p : Matrix (Fin n) (Fin 3) ℝ) (hn : 2 ≤ n)
    (hdcent : ∀ j, ∑ i, d i j = 0) (hpcent : ∀ j, ∑ i, p i j = 0) (hp : p ≠ 0)
    (U S Vt : Matrix (Fin 3) (Fin 3) ℝ)
    (hsvd : IsSVD (crossCovariance d p) U S Vt) :
    0 ≤ (symmetry_measure d p U Vt).symmetry_measure ∧
      ((symmetry_measure d p U Vt).symmetry_measure = 0 ↔ IsSimilarityTransform d p) := by
  have hn1 : n ≠ 1 := by omega
  exact ⟨symmetry_measure_nonneg d p U Vt,
    fun h => similarity_of_symmetry_measure_eq_zero d p hn1 hp U S Vt hsvd h,
    fun h => symmetry_measure_eq_zero_of_similarity d p hn1 hp U S Vt hsvd h⟩

/-- Witness for C1: the hypotheses hold at the concrete centered pair
`pW, pW` with the explicit SVD `(1, diag svW, 1)` of its cross-covariance,
and the conclusion is obtained by applying the theorem there. -/
theorem C1_witness :
    (2 ≤ 2 ∧ (∀ j, ∑ i, pW i j = 0) ∧ pW ≠ (0 : Matrix (Fin 2) (Fin 3) ℝ) ∧
      IsSVD (crossCovariance pW pW) 1 (Matrix.diagonal svW) 1) ∧
    (0 ≤ (symmetry_measure pW pW 1 1).symmetry_measure ∧
      ((symmetry_measure pW pW 1 1).symmetry_measure = 0 ↔ IsSimilarityTransform pW pW)) :=
  ⟨⟨le_refl 2, pW_centered, pW_ne_zero, isSVD_pW⟩,
    C1_symmetry_measure_nonneg_and_zero_iff_similarity pW pW (le_refl 2) pW_centered
      pW_centered pW_ne_zero 1 (Matrix.diagonal svW) 1 isSVD_pW⟩

section SpecFormula

variable {n : ℕ}

lemma rotated_apply (d : Matrix (Fin n) (Fin 3) ℝ) (R : Matrix (Fin 3) (Fin 3) ℝ)
    (i : Fin n) (j : Fin 3) : ((R * dᵀ)ᵀ) i j = R.mulVec (d i) j := by
  simp [Matrix.mul_apply, Matrix.mulVec, dotProduct, Matrix.transpose_apply]

lemma tensordot_rotated_left (d p : Matrix (Fin n) (Fin 3) ℝ) (R : Matrix (Fin 3) (Fin 3) ℝ) :
    tensordot ((R * dᵀ)ᵀ) p = ∑ i, R.mulVec (d i) ⬝ᵥ p i := by
  rw [tensordot]
  refine Finset.sum_congr rfl fun i _ => ?_
  rw [dotProduct]
  exact Finset.sum_congr rfl fun j _ => by rw [rotated_apply]

lemma tensordot_rotated_self (d : Matrix (Fin n) (Fin 3) ℝ) (R : Matrix (Fin 3) (Fin 3) ℝ) :
    tensordot ((R * dᵀ)ᵀ) ((R * dᵀ)ᵀ) = ∑ i, R.mulVec (d i) ⬝ᵥ R.mulVec (d i) := by
  rw [tensordot]
  refine Finset.sum_congr rfl fun i _ => ?_
  rw [dotProduct]
  exact Finset.sum_congr rfl fun j _ => by rw [rotated_apply]

lemma tensordot_diff_sq (d p : Matrix (Fin n) (Fin 3) ℝ) (R : Matrix (Fin 3) (Fin 3) ℝ)
    (s : ℝ) :
    tensordot (p - s • (R * dᵀ)ᵀ) (p - s • (R * dᵀ)ᵀ)
      = ∑ i, ∑ j, (p i j - s * R.mulVec (d i) j) ^ 2 := by
  rw [tensordot]
  refine Finset.sum_congr rfl fun i _ => Finset.sum_congr rfl fun j _ => ?_
  rw [Matrix.sub_apply, Matrix.smul_apply, smul_eq_mul, rotated_apply, pow_two]

lemma tensordot_self_sq (p : Matrix (Fin n) (Fin 3) ℝ) :
    tensordot p p = ∑ i, ∑ j, p i j ^ 2 := by
  rw [tensordot]
  exact Finset.sum_congr rfl fun i _ => Finset.sum_congr rfl fun j _ => (pow_two _).symm

end SpecFormula

/-- C2: for point sets with at least 2 points, `symmetry_measure` returns
exactly `100·Σ‖perfect_i − s·R·distorted_i‖²/Σ‖perfect_i‖²` where `s` is the
closed-form least-squares scale
`(Σ (R·distorted_i)·perfect_i)/(Σ (R·distorted_i)·(R·distorted_i))`, and the
returned scaling factor is that `s`. -/
theorem C2_symmetry_measure_eq_spec_formula
    {n : ℕ} (d p : Matrix (Fin n) (Fin 3) ℝ) (hn : 2 ≤ n)
    (U Vt : Matrix (Fin 3) (Fin 3) ℝ) :
    (symmetry_measure d p U Vt).symmetry_measure
        = spec_csm d p (find_rotation d p U Vt) ∧
      (symmetry_measure d p U Vt).scaling_factor
        = some (spec_scale d p (find_rotation d p U Vt)) := by
  have hn1 : n ≠ 1 := by omega
  rw [symmetry_measure]
  simp only [if_neg hn1]
  have hs : tensordot (((find_rotation d p U Vt) * dᵀ)ᵀ) p /
      tensordot (((find_rotation d p U Vt) * dᵀ)ᵀ) (((find_rotation d p U Vt) * dᵀ)ᵀ)
      = spec_scale d p (find_rotation d p U Vt) := by
    rw [spec_scale, tensordot_rotated_left, tensordot_rotated_self]
  constructor
  · show tensordot _ _ / tensordot p p * 100.0 = _
    rw [find_scaling_factor]
    simp only
    rw [hs, tensordot_diff_sq, tensordot_self_sq, spec_csm]
    norm_num
    ring
  · show some _ = some _
    rw [find_scaling_factor]
    simp only
    rw [hs]

/-- Witness for C2 at the concrete pair `pW, pW` with trivial SVD factors. -/
theorem C2_witness :
    2 ≤ 2 ∧
      ((symmetry_measure pW pW 1 1).symmetry_measure
          = spec_csm pW pW (find_rotation pW pW 1 1) ∧
        (symmetry_measure pW pW 1 1).scaling_factor
          = some (spec_scale pW pW (find_rotation pW pW 1 1))) :=
  ⟨le_refl 2, C2_symmetry_measure_eq_spec_formula pW pW (le_refl 2) 1 1⟩

section ReflFacts

lemma crossCovariance_refl : crossCovariance dRefl pRefl = JRefl := by
  ext i j
  fin_cases i <;> fin_cases j <;>
    simp [crossCovariance, Matrix.mul_apply, Matrix.transpose_apply, Fin.sum_univ_succ,
      dRefl, pRefl, JRefl, Matrix.diagonal]

lemma JRefl_transpose : JReflᵀ = JRefl := by
  rw [JRefl, Matrix.diagonal_transpose]

lemma JRefl_mul_self : JRefl * JRefl = 1 := by
  rw [JRefl, Matrix.diagonal_mul_diagonal]
  ext i j
  fin_cases i <;> fin_cases j <;> simp [Matrix.diagonal, Matrix.one_apply] <;> norm_num

lemma isSVD_refl : IsSVD (crossCovariance dRefl pRefl) JRefl 1 1 := by
  refine ⟨?_, ?_, by simp, by simp, ⟨fun _ => 1, fun _ => by norm_num, ?_⟩, ?_⟩
  · rw [JRefl_transpose]; exact JRefl_mul_self
  · rw [JRefl_transpose]; exact JRefl_mul_self
  · rw [Matrix.diagonal_one]
  · rw [crossCovariance_refl]; simp

end ReflFacts

/-- C3: for every pair of equally sized point sets, `find_rotation` returns
`Vtᵀ·Uᵀ` where `U·S·Vt` is the SVD of the cross-covariance
`H = distortedᵀ·perfect` — equivalently the inverse of `U·Vt` — with no
proper-rotation constraint: at the concrete mirror pair
`dRefl, pRefl` a valid SVD yields a returned matrix of determinant `-1`
(a reflection) and no correction is applied. -/
theorem C3_find_rotation_formula_and_reflection :
    (∀ (n : ℕ) (d p : Matrix (Fin n) (Fin 3) ℝ) (U S Vt : Matrix (Fin 3) (Fin 3) ℝ),
        IsSVD (crossCovariance d p) U S Vt →
          find_rotation d p U Vt = Vtᵀ * Uᵀ ∧
            (U * Vt) * find_rotation d p U Vt = 1 ∧
            find_rotation d p U Vt * (U * Vt) = 1 ∧
            (U * Vt)⁻¹ = find_rotation d p U Vt) ∧
      (IsSVD (crossCovariance dRefl pRefl) JRefl 1 1 ∧
        (find_rotation dRefl pRefl JRefl 1).det = -1) := by
  constructor
  · rintro n d p U S Vt ⟨hU1, hU2, hV1, hV2, -, -⟩
    have hR1 : (U * Vt) * (Vtᵀ * Uᵀ) = 1 := by
      calc (U * Vt) * (Vtᵀ * Uᵀ) = U * (Vt * Vtᵀ) * Uᵀ := by simp only [Matrix.mul_assoc]
        _ = 1 := by rw [hV1, Matrix.mul_one, hU1]
    have hR2 : (Vtᵀ * Uᵀ) * (U * Vt) = 1 := by
      calc (Vtᵀ * Uᵀ) * (U * Vt) = Vtᵀ * (Uᵀ * U) * Vt := by simp only [Matrix.mul_assoc]
        _ = 1 := by rw [hU2, Matrix.mul_one, hV2]
    exact ⟨rfl, hR1, hR2, Matrix.inv_eq_right_inv hR1⟩
  · refine ⟨isSVD_refl, ?_⟩
    have : find_rotation dRefl pRefl JRefl 1 = JRefl := by
      rw [find_rotation, JRefl_transpose, Matrix.transpose_one, Matrix.one_mul]
    rw [this, JRefl, Matrix.det_diagonal]
    simp [Fin.prod_univ_succ]

/-- Witness for C3: the universally quantified part applied at the concrete
pair `pW, pW` with its explicit SVD. -/
theorem C3_witness :
    IsSVD (crossCovariance pW pW) 1 (Matrix.diagonal svW) 1 ∧
      (find_rotation pW pW 1 1 = (1 : Matrix (Fin 3) (Fin 3) ℝ)ᵀ * 1ᵀ ∧
        ((1 : Matrix (Fin 3) (Fin 3) ℝ) * 1) * find_rotation pW pW 1 1 = 1 ∧
        find_rotation pW pW 1 1 * ((1 : Matrix (Fin 3) (Fin 3) ℝ) * 1) = 1 ∧
        ((1 : Matrix (Fin 3) (Fin 3) ℝ) * 1)⁻¹ = find_rotation pW pW 1 1) :=
  ⟨isSVD_pW,
    C3_find_rotation_formula_and_reflection.1 2 pW pW 1 (Matrix.diagonal svW) 1 isSVD_pW⟩

section ArgminLemmas

lemma argminAux_cases (l : List ℝ) : ∀ (pos best : ℕ) (bestval : ℝ),
    (argminAux l pos best bestval = best ∧ ∀ k, k < l.length → bestval ≤ l.getD k 0) ∨
      (∃ k, k < l.length ∧ argminAux l pos best bestval = pos + k ∧
        l.getD k 0 ≤ bestval ∧ ∀ m, m < l.length → l.getD k 0 ≤ l.getD m 0) := by
  induction l with
  | nil =>
    intro pos best bestval
    left
    exact ⟨rfl, fun k hk => absurd hk (by simp)⟩
  | cons x rest ih =>
    intro pos best bestval
    rw [argminAux]
    split
    case isTrue h =>
      rcases ih (pos + 1) pos x with ⟨heq, hall⟩ | ⟨k, hk, heq, hle, hmin⟩
      · right
        refine ⟨0, by simp, by rw [heq]; omega, by simpa using h.le, ?_⟩
        intro m hm
        match m with
        | 0 => simp
        | j + 1 =>
          simp only [List.getD_cons_zero, List.getD_cons_succ]
          exact hall j (by simpa using hm)
      · right
        refine ⟨k + 1, by simpa using hk, by rw [heq]; omega, ?_, ?_⟩
        · simp only [List.getD_cons_succ]
          exact hle.trans h.le
        · intro m hm
          match m with
          | 0 =>
            simp only [List.getD_cons_succ, List.getD_cons_zero]
            exact hle
          | j + 1 =>
            simp only [List.getD_cons_succ]
            exact hmin j (by simpa using hm)
    case isFalse h =>
      rcases ih (pos + 1) best bestval with ⟨heq, hall⟩ | ⟨k, hk, heq, hle, hmin⟩
      · left
        refine ⟨heq, ?_⟩
        intro m hm
        match m with
        | 0 => simpa using not_lt.mp h
        | j + 1 =>
          simp only [List.getD_cons_succ]
          exact hall j (by simpa using hm)
      · right
        refine ⟨k + 1, by simpa using hk, by rw [heq]; omega, ?_, ?_⟩
        · simp only [List.getD_cons_succ]
          exact hle
        · intro m hm
          match m with
          | 0 =>
            simp only [List.getD_cons_succ, List.getD_cons_zero]
            exact hle.trans (not_lt.mp h)
          | j + 1 =>
            simp only [List.getD_cons_succ]
            exact hmin j (by simpa using hm)

lemma argminList_spec (l : List ℝ) (hl : l ≠ []) :
    argminList l < l.length ∧
      ∀ j, j < l.length → l.getD (argminList l) 0 ≤ l.getD j 0 := by
  obtain ⟨x, rest, rfl⟩ := List.exists_cons_of_ne_nil hl
  rw [argminList]
  rcases argminAux_cases rest 1 0 x with ⟨heq, hall⟩ | ⟨k, hk, heq, hle, hmin⟩
  · rw [heq]
    refine ⟨by simp, ?_⟩
    intro j hj
    match j with
    | 0 => simp
    | m + 1 =>
      simp only [List.getD_cons_zero, List.getD_cons_succ]
      exact hall m (by simpa using hj)
  · rw [heq]
    refine ⟨by simp; omega, ?_⟩
    intro j hj
    have h1k : 1 + k = k + 1 := by omega
    rw [h1k]
    match j with
    | 0 =>
      simp only [List.getD_cons_succ, List.getD_cons_zero]
      exact hle
    | m + 1 =>
      simp only [List.getD_cons_succ]
      exact hmin m (by simpa using hj)

lemma getD_map_fn {α β : Type} (l : List α) (f : α → β) (d : α) (k : ℕ) :
    (l.map f).getD k (f d) = f (l.getD k d) := by
  induction l generalizing k with
  | nil => simp
  | cons a t ih =>
    match k with
    | 0 => simp
    | m + 1 => simpa using ih m

end ArgminLemmas

/-- C7: with `only_minimum` requested, for every geometry whose search
produced at least one alignment result, the entry kept by the orchestrator
is one whose symmetry measure equals the minimum over all measures computed
for that geometry's evaluated permutations, together with the minimizing
permutation and its two index maps (taken at the same index). -/
theorem C7_only_minimum_selects_minimum (out : CgsmOutput)
    (hres : out.results ≠ []) :
    ∃ i, i < out.results.length ∧
      ∃ e, selectMinimumEntry out = some e ∧
        e.csm = (out.results.getD i default).symmetry_measure ∧
        (∀ j, j < out.results.length →
          e.csm ≤ (out.results.getD j default).symmetry_measure) ∧
        e.indices = out.permutations.getD i [] ∧
        e.local2perfect_map = out.local2perfect_maps.getD i emptyDict ∧
        e.perfect2local_map = out.perfect2local_maps.getD i emptyDict := by
  have hmapne : out.results.map SMResult.symmetry_measure ≠ [] := by
    simpa using hres
  obtain ⟨hlt, hmin⟩ := argminList_spec (out.results.map SMResult.symmetry_measure) hmapne
  rw [List.length_map] at hlt
  have hgetD : ∀ j, (out.results.map SMResult.symmetry_measure).getD j 0
      = (out.results.getD j default).symmetry_measure := by
    intro j
    have hd : (default : SMResult).symmetry_measure = 0 := rfl
    rw [← hd, getD_map_fn]
  refine ⟨argminList (out.results.map SMResult.symmetry_measure), hlt, ?_⟩
  rw [selectMinimumEntry, if_pos (by omega)]
  refine ⟨_, rfl, rfl, ?_, rfl, rfl, rfl⟩
  intro j hj
  have := hmin j (by simpa using hj)
  rw [hgetD, hgetD] at this
  exact this

/-- Witness for C7 at a concrete two-result search output. -/
theorem C7_witness :
    outW.results ≠ [] ∧
      (∃ i, i < outW.results.length ∧
        ∃ e, selectMinimumEntry outW = some e ∧
          e.csm = (outW.results.getD i default).symmetry_measure ∧
          (∀ j, j < outW.results.length →
            e.csm ≤ (outW.results.getD j default).symmetry_measure) ∧
          e.indices = outW.permutations.getD i [] ∧
          e.local2perfect_map = outW.local2perfect_maps.getD i emptyDict ∧
          e.perfect2local_map = outW.perfect2local_maps.getD i emptyDict) :=
  ⟨by simp [outW], C7_only_minimum_selects_minimum outW (by simp [outW])⟩

/-- C10: with `only_minimum` requested (coordination number above 1, so the
aligner returned an explicit scale `s` and rotation `R`), the entry the
orchestrator reports carries not `s` and `R` themselves but `1/s` and
`R⁻¹` — the transform in the opposite, perfect-to-distorted direction
(for the orthogonal `R` produced by the aligner, `R⁻¹ = Rᵀ`). -/
theorem C10_reported_scale_and_rotation_are_inverses (out : CgsmOutput)
    (hres : out.results ≠ [])
    (s : ℝ) (hs : s ≠ 0) (R : Matrix (Fin 3) (Fin 3) ℝ) (hR : R * Rᵀ = 1)
    (hscale : (out.results.getD
        (argminList (out.results.map SMResult.symmetry_measure)) default).scaling_factor
      = some s)
    (hrot : (out.results.getD
        (argminList (out.results.map SMResult.symmetry_measure)) default).rotation_matrix
      = some R) :
    ∃ e, selectMinimumEntry out = some e ∧
      e.scaling_factor = some (1 / s) ∧ (1 / s) * s = 1 ∧
      e.rotation_matrix = some R⁻¹ ∧ R⁻¹ = Rᵀ ∧ R⁻¹ * R = 1 ∧ R * R⁻¹ = 1 := by
  have hlen : 0 < out.results.length := List.length_pos.mpr hres
  rw [selectMinimumEntry, if_pos hlen]
  refine ⟨_, rfl, ?_, one_div_mul_cancel hs, ?_, Matrix.inv_eq_right_inv hR, ?_, ?_⟩
  · show Option.map _ _ = _
    rw [hscale]
    rfl
  · show Option.map _ _ = _
    rw [hrot]
    rfl
  · rw [Matrix.inv_eq_right_inv hR]
    exact Matrix.mul_eq_one_comm.mp hR
  · rw [Matrix.inv_eq_right_inv hR]
    exact hR

/-- Witness for C10 at the concrete output `outW2` (scale 2, rotation 1). -/
theorem C10_witness :
    outW2.results ≠ [] ∧ (2 : ℝ) ≠ 0 ∧
      ((1 : Matrix (Fin 3) (Fin 3) ℝ)) * (1 : Matrix (Fin 3) (Fin 3) ℝ)ᵀ = 1 ∧
      (∃ e, selectMinimumEntry outW2 = some e ∧
        e.scaling_factor = some (1 / 2) ∧ ((1 : ℝ) / 2) * 2 = 1 ∧
        e.rotation_matrix = some (1 : Matrix (Fin 3) (Fin 3) ℝ)⁻¹ ∧
        (1 : Matrix (Fin 3) (Fin 3) ℝ)⁻¹ = (1 : Matrix (Fin 3) (Fin 3) ℝ)ᵀ ∧
        (1 : Matrix (Fin 3) (Fin 3) ℝ)⁻¹ * 1 = 1 ∧
        (1 : Matrix (Fin 3) (Fin 3) ℝ) * (1 : Matrix (Fin 3) (Fin 3) ℝ)⁻¹ = 1) :=
  ⟨by simp [outW2], by norm_num, by simp,
    C10_reported_scale_and_rotation_are_inverses outW2 (by simp [outW2]) 2 (by norm_num)
      1 (by simp) (by rfl) (by rfl)⟩

/-- C4: a single-point distorted set short-circuits: `symmetry_measure`
returns exactly csm `0.0` with `None` scale and rotation whatever SVD
factors are supplied (so no SVD result is consulted), and the orchestrator
returns the fixed `S:1` result with csm `0.0` and the identity index
mapping `{0: 0}` whenever any geometry is implemented for coordination
number 1. -/
theorem C4_single_point_short_circuit :
    (∀ (d p : Matrix (Fin 1) (Fin 3) ℝ) (U Vt : Matrix (Fin 3) (Fin 3) ℝ),
        symmetry_measure d p U Vt
          = { symmetry_measure := 0.0, scaling_factor := none, rotation_matrix := none }) ∧
      ∀ (geoms : List String) (cgsmOf : String → CgsmOutput), geoms ≠ [] →
        get_coordination_symmetry_measures 1 geoms cgsmOf = [("S:1", s1Entry)] ∧
          s1Entry.csm = 0 ∧ s1Entry.indices = [0] ∧
          s1Entry.perfect2local_map 0 = some 0 ∧ s1Entry.local2perfect_map 0 = some 0 ∧
          (∀ k, k ≠ 0 → s1Entry.perfect2local_map k = none ∧
            s1Entry.local2perfect_map k = none) ∧
          s1Entry.scaling_factor = none ∧ s1Entry.rotation_matrix = none := by
  constructor
  · intro d p U Vt
    rw [symmetry_measure, if_pos rfl]
  · intro geoms cgsmOf hne
    have hlen : geoms.length ≠ 0 := by simpa [List.length_eq_zero] using hne
    rw [get_coordination_symmetry_measures, if_pos rfl, if_neg hlen]
    refine ⟨rfl, by norm_num [s1Entry], rfl, rfl, rfl, ?_, rfl, rfl⟩
    intro k hk
    constructor <;> simp [s1Entry, dictInsert, emptyDict, hk]

/-- Witness for C4: the orchestrator branch applied with the tetrahedron
symbol as the (non-empty) implemented-geometry list. -/
theorem C4_witness :
    (["T:4"] : List String) ≠ [] ∧
      (get_coordination_symmetry_measures 1 ["T:4"] (fun _ => ⟨[], [], [], [], []⟩)
          = [("S:1", s1Entry)] ∧
        s1Entry.csm = 0 ∧ s1Entry.indices = [0] ∧
        s1Entry.perfect2local_map 0 = some 0 ∧ s1Entry.local2perfect_map 0 = some 0 ∧
        (∀ k, k ≠ 0 → s1Entry.perfect2local_map k = none ∧
          s1Entry.local2perfect_map k = none) ∧
        s1Entry.scaling_factor = none ∧ s1Entry.rotation_matrix = none) :=
  ⟨by simp,
    C4_single_point_short_circuit.2 (["T:4"]) (fun _ => ⟨[], [], [], [], []⟩) (by simp)⟩

/-- C8: every successfully constructed `SeparationPlane` satisfies
`|A| ≤ |B|`: construction fails with an error when the first point group is
strictly larger than the second, so all instances reachable by the search
carry the invariant. -/
theorem C8_separation_plane_size_invariant :
    (∀ pp mp op (pg : List ℕ × List ℕ) opg ep eop mnp mult opp spd,
        SeparationPlane_init pp mp op pg opg ep eop mnp mult opp = Except.ok spd →
          spd.point_groups.1.length ≤ spd.point_groups.2.length) ∧
      ∀ pp mp op (pg : List ℕ × List ℕ) opg ep eop mnp mult opp,
        pg.1.length > pg.2.length →
          ∃ msg, SeparationPlane_init pp mp op pg opg ep eop mnp mult opp
            = Except.error msg := by
  constructor
  · intro pp mp op pg opg ep eop mnp mult opp spd h
    rw [SeparationPlane_init] at h
    split at h
    case isTrue => exact absurd h (by simp)
    case isFalse hle =>
      injection h with h2
      rw [← h2]
      exact not_lt.mp hle
  · intro pp mp op pg opg ep eop mnp mult opp hgt
    exact ⟨_, by rw [SeparationPlane_init, if_pos hgt]⟩

/-- Witness for C8: a valid construction (sizes 1 ≤ 1) and a rejected one
(sizes 2 > 1). -/
theorem C8_witness :
    (∃ spd, SeparationPlane_init [1, 2] false false ([0], [3]) none
        (some [[0, 1, 2, 3]]) none 2 none none = Except.ok spd ∧
        spd.point_groups.1.length ≤ spd.point_groups.2.length) ∧
      ((([0, 1] : List ℕ), ([2] : List ℕ)).1.length
          > (([0, 1] : List ℕ), ([2] : List ℕ)).2.length ∧
        ∃ msg, SeparationPlane_init [0] false false ([0, 1], [2]) none none none 2
          none none = Except.error msg) := by
  constructor
  · have h : ∃ spd, SeparationPlane_init [1, 2] false false ([0], [3]) none
        (some [[0, 1, 2, 3]]) none 2 none none = Except.ok spd := by
      rw [SeparationPlane_init, if_neg (by norm_num)]
      exact ⟨_, rfl⟩
    obtain ⟨spd, hspd⟩ := h
    exact ⟨spd, hspd, C8_separation_plane_size_invariant.1 _ _ _ _ _ _ _ _ _ _ spd hspd⟩
  · exact ⟨by norm_num,
      C8_separation_plane_size_invariant.2 [0] false false ([0, 1], [2]) none none
        none 2 none none (by norm_num)⟩

/-- C5: when the separation-plane search exhausts all candidate subsets
with zero planes found, the engine falls back to scoring exactly 10 random
permutations through the aligner, so the search returns a non-empty result
list instead of failing. -/
theorem C5_no_separation_triggers_random_fallback {n : ℕ} (base : SepPlaneBase n)
    (candidate_levels : List (List (Option (ℝ → Separation))))
    (hzero : (sepPlaneLevels base sepAccumInit candidate_levels).nplanes = 0) :
    coordination_geometry_symmetry_measures_separation_plane base candidate_levels
        = coordination_geometry_symmetry_measures_fallback_random 10 base.rng
          base.wcs base.wocs base.points_perfect base.svdOf ∧
      (coordination_geometry_symmetry_measures_separation_plane base
          candidate_levels).results.length = 10 ∧
      (coordination_geometry_symmetry_measures_separation_plane base
          candidate_levels).permutations.length = 10 ∧
      (coordination_geometry_symmetry_measures_separation_plane base
          candidate_levels).results ≠ [] := by
  have heq : coordination_geometry_symmetry_measures_separation_plane base
      candidate_levels
      = coordination_geometry_symmetry_measures_fallback_random 10 base.rng base.wcs
        base.wocs base.points_perfect base.svdOf := by
    rw [coordination_geometry_symmetry_measures_separation_plane]
    show (if (sepPlaneLevels base sepAccumInit candidate_levels).nplanes = 0
        then _ else _) = _
    rw [if_pos hzero]
  have hlen : (coordination_geometry_symmetry_measures_fallback_random 10 base.rng
      base.wcs base.wocs base.points_perfect base.svdOf).results.length = 10 := by
    rw [coordination_geometry_symmetry_measures_fallback_random]
    simp
  refine ⟨heq, by rw [heq]; exact hlen, ?_, ?_⟩
  · rw [heq, coordination_geometry_symmetry_measures_fallback_random]
    simp
  · rw [heq]
    intro hnil
    rw [hnil] at hlen
    simp at hlen

/-- Witness for C5: an empty candidate-level list leaves the plane count at
zero, and the fallback result is returned. -/
theorem C5_witness :
    (sepPlaneLevels baseW sepAccumInit []).nplanes = 0 ∧
      (coordination_geometry_symmetry_measures_separation_plane baseW []
          = coordination_geometry_symmetry_measures_fallback_random 10 baseW.rng
            baseW.wcs baseW.wocs baseW.points_perfect baseW.svdOf ∧
        (coordination_geometry_symmetry_measures_separation_plane baseW
            []).results.length = 10 ∧
        (coordination_geometry_symmetry_measures_separation_plane baseW
            []).permutations.length = 10 ∧
        (coordination_geometry_symmetry_measures_separation_plane baseW
            []).results ≠ []) :=
  ⟨rfl, C5_no_separation_triggers_random_fallback baseW [] rfl⟩

section ToleranceLoopLemmas

variable {n : ℕ}

lemma cgCsmSepPlaneStep_plane_found (ctx : SepPlaneContext n) (st : SepPlaneState)
    (t : ℝ) : (cgCsmSepPlaneStep ctx st t).plane_found = st.plane_found := by
  simp only [cgCsmSepPlaneStep, processSeparation]
  repeat' split
  all_goals rfl

lemma cgCsmSepPlaneStep_trace (ctx : SepPlaneContext n) (st : SepPlaneState)
    (t : ℝ) : (cgCsmSepPlaneStep ctx st t).evaluated_tolerances
      = st.evaluated_tolerances ++ [t] := by
  simp only [cgCsmSepPlaneStep, processSeparation]
  repeat' split
  all_goals rfl

lemma cgCsmSepPlaneLoop_trace (ctx : SepPlaneContext n) :
    ∀ (ts : List ℝ) (st : SepPlaneState), st.plane_found = false →
      (cgCsmSepPlaneLoop ctx st ts).evaluated_tolerances
          = st.evaluated_tolerances ++ ts ∧
        (cgCsmSepPlaneLoop ctx st ts).plane_found = false := by
  intro ts
  induction ts with
  | nil =>
    intro st h
    exact ⟨(List.append_nil _).symm, h⟩
  | cons t rest ih =>
    intro st h
    rw [cgCsmSepPlaneLoop]
    have hpf : (cgCsmSepPlaneStep ctx st t).plane_found = false := by
      rw [cgCsmSepPlaneStep_plane_found]; exact h
    rw [if_neg (by simp [hpf])]
    obtain ⟨h1, h2⟩ := ih (cgCsmSepPlaneStep ctx st t) hpf
    refine ⟨?_, h2⟩
    rw [h1, cgCsmSepPlaneStep_trace]
    simp

lemma cgCsmSepPlane_trace (ctx : SepPlaneContext n)
    (plane_separations : List Separation) (dist_tolerances : List ℝ) :
    (cgCsmSepPlane ctx plane_separations dist_tolerances).2.2 = dist_tolerances := by
  obtain ⟨h1, -⟩ := cgCsmSepPlaneLoop_trace ctx dist_tolerances
    { cgInitState with plane_separations := plane_separations } rfl
  have h1' : (cgCsmSepPlaneLoop ctx
      { cgInitState with plane_separations := plane_separations }
      dist_tolerances).evaluated_tolerances = dist_tolerances := by
    rw [h1]
    rfl
  simp only [cgCsmSepPlane]
  split
  · exact h1'
  · split
    · exact h1'
    · exact h1'

end ToleranceLoopLemmas

/-- C6 (amended): for every candidate plane, the classification into
positive-side / negative-side / in-plane groups runs over the distance
tolerances in increasing order from the fixed sequence
`[0.02, 0.05, 0.1, 0.2, 0.3]`; but the loop has no early exit — the
`plane_found` flag that would trigger the `break` is never set (its only
assignment is commented out in the source), so every tolerance in the list
is evaluated for each plane even after a matching separation is found
(already-seen separations at looser tolerances are skipped by the
`separation_in_list` check). -/
theorem C6_tolerances_increasing_and_all_evaluated :
    DIST_TOLERANCES = [0.02, 0.05, 0.1, 0.2, 0.3] ∧
      DIST_TOLERANCES.Chain' (· < ·) ∧
      ∀ {n : ℕ} (ctx : SepPlaneContext n) (plane_separations : List Separation)
        (dist_tolerances : List ℝ),
        (cgCsmSepPlane ctx plane_separations dist_tolerances).2.2
          = dist_tolerances := by
  refine ⟨rfl, ?_, fun ctx ps ts => cgCsmSepPlane_trace ctx ps ts⟩
  rw [DIST_TOLERANCES]
  norm_num [List.chain'_cons]

/-- Counterexample to C6 as stated: at the concrete context `ctxW` the
tightest tolerance `0.02` alone already produces a matching separation
(one scored permutation), yet the full run still evaluates every tolerance
— `0.05` (and all looser ones) are classified after the success, instead of
the search stopping at the first non-trivial separation. -/
theorem C6_counterexample :
    (cgCsmSepPlaneLoop ctxW cgInitState
        [(0.02 : ℝ)]).permutations_symmetry_measures.length = 1 ∧
      (cgCsmSepPlane ctxW [] DIST_TOLERANCES).1.isSome = true ∧
      (cgCsmSepPlane ctxW [] DIST_TOLERANCES).2.2
          = [0.02, 0.05, 0.1, 0.2, 0.3] ∧
      (0.05 : ℝ) ∈ (cgCsmSepPlane ctxW [] DIST_TOLERANCES).2.2 := by
  refine ⟨rfl, rfl, rfl, ?_⟩
  have h : (cgCsmSepPlane ctxW [] DIST_TOLERANCES).2.2
      = [0.02, 0.05, 0.1, 0.2, 0.3] := rfl
  rw [h]
  simp

section MapsLemmas

lemma mapsFold_spec (l : List ℕ) : ∀ (st : ℕ) (acc : (ℕ → Option ℕ) × (ℕ → Option ℕ)),
    (∀ i, i < st → ((l.enumFrom st).foldl mapsStep acc).1 i = acc.1 i) ∧
      (∀ k, k < l.length →
        ((l.enumFrom st).foldl mapsStep acc).1 (st + k) = some (l.getD k 0)) ∧
      (∀ v, v ∉ l → ((l.enumFrom st).foldl mapsStep acc).2 v = acc.2 v) ∧
      (l.Nodup → ∀ k, k < l.length →
        ((l.enumFrom st).foldl mapsStep acc).2 (l.getD k 0) = some (st + k)) := by
  induction l with
  | nil =>
    intro st acc
    exact ⟨fun i _ => rfl, fun k hk => absurd hk (by simp), fun v _ => rfl,
      fun _ k hk => absurd hk (by simp)⟩
  | cons a t ih =>
    intro st acc
    have hstep : ((a :: t).enumFrom st).foldl mapsStep acc
        = (t.enumFrom (st + 1)).foldl mapsStep (mapsStep acc (st, a)) := rfl
    rw [hstep]
    obtain ⟨ih1, ih2, ih3, ih4⟩ := ih (st + 1) (mapsStep acc (st, a))
    refine ⟨?_, ?_, ?_, ?_⟩
    · intro i hi
      rw [ih1 i (by omega)]
      show dictInsert acc.1 st a i = acc.1 i
      simp only [dictInsert]
      rw [if_neg (by omega)]
    · intro k hk
      match k with
      | 0 =>
        show (List.foldl mapsStep (mapsStep acc (st, a))
          (List.enumFrom (st + 1) t)).1 st = some a
        rw [ih1 st (by omega)]
        simp [mapsStep, dictInsert]
      | m + 1 =>
        have h2 := ih2 m (by simpa using hk)
        have heq : st + 1 + m = st + (m + 1) := by omega
        rw [heq] at h2
        exact h2
    · intro v hv
      have hvt : v ∉ t := fun hmem => hv (List.mem_cons_of_mem a hmem)
      have hva : v ≠ a := fun hvae => hv (hvae ▸ List.mem_cons_self a t)
      rw [ih3 v hvt]
      show dictInsert acc.2 a st v = acc.2 v
      simp only [dictInsert]
      rw [if_neg hva]
    · intro hnd k hk
      obtain ⟨hna, hndt⟩ := List.nodup_cons.mp hnd
      match k with
      | 0 =>
        show (List.foldl mapsStep (mapsStep acc (st, a))
          (List.enumFrom (st + 1) t)).2 a = some st
        rw [ih3 a hna]
        simp [mapsStep, dictInsert]
      | m + 1 =>
        have h4 := ih4 hndt m (by simpa using hk)
        have heq : st + 1 + m = st + (m + 1) := by omega
        rw [heq] at h4
        exact h4

lemma buildP2lL2p_p2l (perm : List ℕ) (k : ℕ) (hk : k < perm.length) :
    (buildP2lL2p perm).1 k = some (perm.getD k 0) := by
  have h := (mapsFold_spec perm 0 (emptyDict, emptyDict)).2.1 k hk
  rw [Nat.zero_add] at h
  exact h

lemma buildP2lL2p_l2p (perm : List ℕ) (hnd : perm.Nodup) (k : ℕ)
    (hk : k < perm.length) :
    (buildP2lL2p perm).2 (perm.getD k 0) = some k := by
  have h := (mapsFold_spec perm 0 (emptyDict, emptyDict)).2.2.2 hnd k hk
  rw [Nat.zero_add] at h
  exact h

end MapsLemmas

/-- C9: the `perfect2local_map` and `local2perfect_map` that accompany a
permutation result (built by the identical loop in the explicit-permutation
search, the separation-plane search and the random fallback, embedded as
`buildP2lL2p`) are mutually inverse on `{0..n-1}` and are determined by the
permutation: `perfect2local_map i = perm[i]` and
`local2perfect_map perm[i] = i` for every position `i`; moreover each of
the three embedded search modes stores exactly `buildP2lL2p` of its `k`-th
returned permutation at index `k` of its map lists. -/
theorem C9_index_maps_mutually_inverse
    (n : ℕ) (perm : List ℕ) (hperm : perm.Perm (List.range n)) :
    ((∀ k, k < n → (buildP2lL2p perm).1 k = some (perm.getD k 0)) ∧
      (∀ k, k < n → (buildP2lL2p perm).2 (perm.getD k 0) = some k) ∧
      (∀ k, k < n → ((buildP2lL2p perm).1 k).bind (buildP2lL2p perm).2 = some k) ∧
      (∀ v, v < n → ((buildP2lL2p perm).2 v).bind (buildP2lL2p perm).1 = some v)) ∧
      ((∀ {m : ℕ} (algoPerms : List (List ℕ)) (algoName : String)
          (wcs : Matrix (Fin (m + 1)) (Fin 3) ℝ) (wocs : Matrix (Fin m) (Fin 3) ℝ)
          (ppf : Matrix (Fin (m + 1)) (Fin 3) ℝ) svdOf (k : ℕ),
          (coordination_geometry_symmetry_measures_standard algoPerms algoName wcs
              wocs ppf svdOf).local2perfect_maps.getD k emptyDict
              = (buildP2lL2p (algoPerms.getD k [])).2 ∧
            (coordination_geometry_symmetry_measures_standard algoPerms algoName wcs
              wocs ppf svdOf).perfect2local_maps.getD k emptyDict
              = (buildP2lL2p (algoPerms.getD k [])).1) ∧
        (∀ {m : ℕ} (n_random : ℕ) (rng : ℕ → List ℕ)
          (wcs : Matrix (Fin (m + 1)) (Fin 3) ℝ) (wocs : Matrix (Fin m) (Fin 3) ℝ)
          (ppf : Matrix (Fin (m + 1)) (Fin 3) ℝ) svdOf (k : ℕ),
          (coordination_geometry_symmetry_measures_fallback_random n_random rng wcs
              wocs ppf svdOf).local2perfect_maps.getD k emptyDict
              = (buildP2lL2p ((coordination_geometry_symmetry_measures_fallback_random
                  n_random rng wcs wocs ppf svdOf).permutations.getD k [])).2 ∧
            (coordination_geometry_symmetry_measures_fallback_random n_random rng wcs
              wocs ppf svdOf).perfect2local_maps.getD k emptyDict
              = (buildP2lL2p ((coordination_geometry_symmetry_measures_fallback_random
                  n_random rng wcs wocs ppf svdOf).permutations.getD k [])).1) ∧
        ∀ {m : ℕ} (base : SepPlaneBase m) candidate_levels (k : ℕ),
          (coordination_geometry_symmetry_measures_separation_plane base
              candidate_levels).local2perfect_maps.getD k emptyDict
              = (buildP2lL2p ((coordination_geometry_symmetry_measures_separation_plane
                  base candidate_levels).permutations.getD k [])).2 ∧
            (coordination_geometry_symmetry_measures_separation_plane base
              candidate_levels).perfect2local_maps.getD k emptyDict
              = (buildP2lL2p ((coordination_geometry_symmetry_measures_separation_plane
                  base candidate_levels).permutations.getD k [])).1) := by
  have hlen : perm.length = n := by
    rw [hperm.length_eq, List.length_range]
  have hnd : perm.Nodup := hperm.nodup_iff.mpr (List.nodup_range n)
  have hl2pmap : ∀ (l : List (List ℕ)) (k : ℕ),
      (l.map fun p => (buildP2lL2p p).2).getD k emptyDict
        = (buildP2lL2p (l.getD k [])).2 := by
    intro l k
    have hde : emptyDict = (buildP2lL2p ([] : List ℕ)).2 := rfl
    rw [hde, getD_map_fn]
  have hp2lmap : ∀ (l : List (List ℕ)) (k : ℕ),
      (l.map fun p => (buildP2lL2p p).1).getD k emptyDict
        = (buildP2lL2p (l.getD k [])).1 := by
    intro l k
    have hde : emptyDict = (buildP2lL2p ([] : List ℕ)).1 := rfl
    rw [hde, getD_map_fn]
  have hfb : ∀ {m : ℕ} (n_random : ℕ) (rng : ℕ → List ℕ)
      (wcs : Matrix (Fin (m + 1)) (Fin 3) ℝ) (wocs : Matrix (Fin m) (Fin 3) ℝ)
      (ppf : Matrix (Fin (m + 1)) (Fin 3) ℝ)
      (svdOf : List ℕ → Matrix (Fin 3) (Fin 3) ℝ × Matrix (Fin 3) (Fin 3) ℝ) (k : ℕ),
      (coordination_geometry_symmetry_measures_fallback_random n_random rng wcs
          wocs ppf svdOf).local2perfect_maps.getD k emptyDict
          = (buildP2lL2p ((coordination_geometry_symmetry_measures_fallback_random
              n_random rng wcs wocs ppf svdOf).permutations.getD k [])).2 ∧
        (coordination_geometry_symmetry_measures_fallback_random n_random rng wcs
          wocs ppf svdOf).perfect2local_maps.getD k emptyDict
          = (buildP2lL2p ((coordination_geometry_symmetry_measures_fallback_random
              n_random rng wcs wocs ppf svdOf).permutations.getD k [])).1 := by
    intro m N rng wcs wocs ppf svdOf k
    constructor
    · show ((List.range N).map fun idx => (buildP2lL2p (rng idx)).2).getD k emptyDict = _
      have hcomp : ((List.range N).map fun idx => (buildP2lL2p (rng idx)).2)
          = ((List.range N).map rng).map fun p => (buildP2lL2p p).2 := by
        rw [List.map_map]
        rfl
      rw [hcomp]
      exact hl2pmap _ k
    · show ((List.range N).map fun idx => (buildP2lL2p (rng idx)).1).getD k emptyDict = _
      have hcomp : ((List.range N).map fun idx => (buildP2lL2p (rng idx)).1)
          = ((List.range N).map rng).map fun p => (buildP2lL2p p).1 := by
        rw [List.map_map]
        rfl
      rw [hcomp]
      exact hp2lmap _ k
  constructor
  · refine ⟨fun k hk => buildP2lL2p_p2l perm k (by omega),
      fun k hk => buildP2lL2p_l2p perm hnd k (by omega), ?_, ?_⟩
    · intro k hk
      rw [buildP2lL2p_p2l perm k (by omega)]
      show (buildP2lL2p perm).2 (perm.getD k 0) = some k
      exact buildP2lL2p_l2p perm hnd k (by omega)
    · intro v hv
      have hvmem : v ∈ perm := hperm.mem_iff.mpr (List.mem_range.mpr hv)
      obtain ⟨i, hi, hiv⟩ := List.getElem_of_mem hvmem
      have hgetD : perm.getD i 0 = v := by
        rw [List.getD_eq_getElem perm 0 hi]
        exact hiv
      rw [← hgetD, buildP2lL2p_l2p perm hnd i hi]
      show (buildP2lL2p perm).1 i = some (perm.getD i 0)
      exact buildP2lL2p_p2l perm i hi
  · refine ⟨?_, hfb, ?_⟩
    · intro m algoPerms algoName wcs wocs ppf svdOf k
      exact ⟨hl2pmap algoPerms k, hp2lmap algoPerms k⟩
    · intro m base cls k
      simp only [coordination_geometry_symmetry_measures_separation_plane]
      split
      · exact hfb 10 base.rng base.wcs base.wocs base.points_perfect base.svdOf k
      · exact ⟨hl2pmap _ k, hp2lmap _ k⟩

/-- Witness for C9 at the concrete permutation `[1, 0]` of `range 2`. -/
theorem C9_witness :
    ([1, 0] : List ℕ).Perm (List.range 2) ∧
      (((∀ k, k < 2 → (buildP2lL2p [1, 0]).1 k = some (([1, 0] : List ℕ).getD k 0)) ∧
        (∀ k, k < 2 → (buildP2lL2p [1, 0]).2 (([1, 0] : List ℕ).getD k 0) = some k) ∧
        (∀ k, k < 2 →
          ((buildP2lL2p [1, 0]).1 k).bind (buildP2lL2p [1, 0]).2 = some k) ∧
        (∀ v, v < 2 →
          ((buildP2lL2p [1, 0]).2 v).bind (buildP2lL2p [1, 0]).1 = some v)) ∧
        ((∀ {m : ℕ} (algoPerms : List (List ℕ)) (algoName : String)
            (wcs : Matrix (Fin (m + 1)) (Fin 3) ℝ) (wocs : Matrix (Fin m) (Fin 3) ℝ)
            (ppf : Matrix (Fin (m + 1)) (Fin 3) ℝ) svdOf (k : ℕ),
            (coordination_geometry_symmetry_measures_standard algoPerms algoName wcs
                wocs ppf svdOf).local2perfect_maps.getD k emptyDict
                = (buildP2lL2p (algoPerms.getD k [])).2 ∧
              (coordination_geometry_symmetry_measures_standard algoPerms algoName wcs
                wocs ppf svdOf).perfect2local_maps.getD k emptyDict
                = (buildP2lL2p (algoPerms.getD k [])).1) ∧
          (∀ {m : ℕ} (n_random : ℕ) (rng : ℕ → List ℕ)
            (wcs : Matrix (Fin (m + 1)) (Fin 3) ℝ) (wocs : Matrix (Fin m) (Fin 3) ℝ)
            (ppf : Matrix (Fin (m + 1)) (Fin 3) ℝ) svdOf (k : ℕ),
            (coordination_geometry_symmetry_measures_fallback_random n_random rng wcs
                wocs ppf svdOf).local2perfect_maps.getD k emptyDict
                = (buildP2lL2p ((coordination_geometry_symmetry_measures_fallback_random
                    n_random rng wcs wocs ppf svdOf).permutations.getD k [])).2 ∧
              (coordination_geometry_symmetry_measures_fallback_random n_random rng wcs
                wocs ppf svdOf).perfect2local_maps.getD k emptyDict
                = (buildP2lL2p ((coordination_geometry_symmetry_measures_fallback_random
                    n_random rng wcs wocs ppf svdOf).permutations.getD k [])).1) ∧
          ∀ {m : ℕ} (base : SepPlaneBase m) candidate_levels (k : ℕ),
            (coordination_geometry_symmetry_measures_separation_plane base
                candidate_levels).local2perfect_maps.getD k emptyDict
                = (buildP2lL2p ((coordination_geometry_symmetry_measures_separation_plane
                    base candidate_levels).permutations.getD k [])).2 ∧
              (coordination_geometry_symmetry_measures_separation_plane base
                candidate_levels).perfect2local_maps.getD k emptyDict
                = (buildP2lL2p ((coordination_geometry_symmetry_measures_separation_plane
                    base candidate_levels).permutations.getD k [])).1)) :=
  ⟨by decide, C9_index_maps_mutually_inverse 2 [1, 0] (by decide)⟩

end Chemenv

end
